import Mathlib

/-!
Shallow embedding of `scripts/generate_deployment_pdf.py`, a Markdown-to-PDF
converter. Python strings are modelled as `List Char` (the script restricts
output bytes to Latin-1, so one `Char` below 256 is one byte). Python functions
that can raise (`textwrap.wrap` with non-positive width, reached through
`markdown_to_lines`) are modelled with `Option`: `none` is a raised exception.
The Python regex character class `\d` is modelled as the ASCII digits; the
Unicode whitespace set of `str.strip` / regex `\s` is `isPySpace`, while
`textwrap`'s word-splitting set (`_whitespace = "\t\n\x0b\x0c\r "`) is the
smaller `isWrapSpace`, exactly as in CPython.
-/

abbrev Str := List Char

/-- whitespace as recognised by Python `str.strip`, `str.isspace` and regex `\s`. -/
def isPySpace (c : Char) : Bool :=
  let n := c.toNat
  (9 ≤ n && n ≤ 13) || (28 ≤ n && n ≤ 31) || n = 32 || n = 133 || n = 160 ||
    n = 5760 || (8192 ≤ n && n ≤ 8202) || n = 8232 || n = 8233 || n = 8239 ||
    n = 8287 || n = 12288

/-- the six characters of `textwrap._whitespace`, used by `wordsep_simple_re`. -/
def isWrapSpace (c : Char) : Bool :=
  let n := c.toNat
  (9 ≤ n && n ≤ 13) || n = 32

/-- line-boundary characters of Python `str.splitlines`. -/
def isLineBoundary (c : Char) : Bool :=
  let n := c.toNat
  (10 ≤ n && n ≤ 13) || n = 28 || n = 29 || n = 30 || n = 133 || n = 8232 || n = 8233

def pyRstrip (l : Str) : Str := (l.reverse.dropWhile isPySpace).reverse

def pyLstrip (l : Str) : Str := l.dropWhile isPySpace

def pyStrip (l : Str) : Str := pyLstrip (pyRstrip l)

def pyUpper (l : Str) : Str := l.map Char.toUpper

/-- one step of `str.splitlines`, consumed by a right fold; the Bool records
whether the character to the right was a bare `\n` (to pair `\r\n`). -/
def splitlinesStep (c : Char) (st : List Str × Bool) : List Str × Bool :=
  if isLineBoundary c then
    if c = '\r' && st.2 then (st.1, false)
    else ([] :: st.1, c = '\n')
  else
    match st.1 with
    | [] => ([[c]], false)
    | l :: rest => ((c :: l) :: rest, false)

def pySplitlines (s : Str) : List Str := (s.foldr splitlinesStep ([], false)).1

/-- `str.expandtabs(8)`: the first argument is the current column. -/
def expandTabsAux : Nat → Str → Str
  | _, [] => []
  | col, c :: cs =>
    if c = '\t' then
      List.replicate (8 - col % 8) ' ' ++ expandTabsAux (col + (8 - col % 8)) cs
    else if c = '\n' || c = '\r' then c :: expandTabsAux 0 cs
    else c :: expandTabsAux (col + 1) cs

def expandTabs (l : Str) : Str := expandTabsAux 0 l

/-- `re.split(wordsep_simple_re)` with empty strings removed: maximal runs of
characters of equal `isWrapSpace`-class, consumed by a right fold. -/
def splitWsStep (c : Char) (acc : List Str) : List Str :=
  match acc with
  | [] => [[c]]
  | run :: rest =>
    match run with
    | [] => [c] :: rest
    | d :: _ => if isWrapSpace c = isWrapSpace d then (c :: run) :: rest else [c] :: run :: rest

def splitWs (l : Str) : List Str := l.foldr splitWsStep []

/-- `chunk.strip() == ""` as used inside `TextWrapper._wrap_chunks`. -/
def wsOnly (l : Str) : Bool := l.all isPySpace

def sumLen (l : List Str) : Nat := (l.map List.length).sum

/-- the inner greedy loop of `_wrap_chunks`: take chunks while they fit. -/
def takeGreedy (width curLen : Nat) : List Str → List Str × List Str
  | [] => ([], [])
  | c :: cs =>
    if curLen + c.length ≤ width then
      let r := takeGreedy width (curLen + c.length) cs
      (c :: r.1, r.2)
    else ([], c :: cs)

/-- drop a leading whitespace chunk, but only once a line has been emitted. -/
def dropLead (hasLines : Bool) (chunks : List Str) : List Str :=
  match chunks with
  | [] => []
  | c :: cs => if hasLines && wsOnly c then cs else c :: cs

/-- `_handle_long_word` with `break_long_words=True`, `break_on_hyphens=False`:
fires when the next chunk is wider than the whole line width. -/
def longAdjust (width : Nat) (tg : List Str × List Str) : List Str × List Str :=
  match tg.2 with
  | [] => tg
  | c :: cs =>
    if width < c.length then
      (tg.1 ++ [c.take (width - sumLen tg.1)], c.drop (width - sumLen tg.1) :: cs)
    else tg

/-- drop the final chunk of the line if it is pure whitespace (checked once). -/
def dropTrailChunk (tk : List Str) : List Str :=
  match tk.getLast? with
  | some l => if wsOnly l then tk.dropLast else tk
  | none => tk

/-- one iteration of the `while chunks` loop of `_wrap_chunks`: returns the
emitted line, if any, and the remaining chunks. -/
def wrapOnce (width : Nat) (hasLines : Bool) (chunks : List Str) : Option Str × List Str :=
  let hl := longAdjust width (takeGreedy width 0 (dropLead hasLines chunks))
  let tk := dropTrailChunk hl.1
  (if tk = [] then none else some tk.flatten, hl.2)

/-- measure for the chunk stack: total characters plus number of chunks. -/
def msr (chunks : List Str) : Nat := sumLen chunks + chunks.length

/-- the `while chunks` loop, fuelled; `msr chunks + 1` fuel always suffices. -/
def wrapFuel (width : Nat) : Nat → Bool → List Str → List Str
  | 0, _, _ => []
  | fuel + 1, hasLines, chunks =>
    match chunks with
    | [] => []
    | c :: cs =>
      let r := wrapOnce width hasLines (c :: cs)
      match r.1 with
      | some line => line :: wrapFuel width fuel true r.2
      | none => wrapFuel width fuel hasLines r.2

def wrapAll (width : Nat) (chunks : List Str) : List Str :=
  wrapFuel width (msr chunks + 1) false chunks

/-- `textwrap.wrap(text, width, break_long_words=True, break_on_hyphens=False,
replace_whitespace=False, drop_whitespace=True)`; `none` models the
`ValueError` raised when `width <= 0`. -/
def pyWrap (text : Str) (width : Int) : Option (List Str) :=
  if width ≤ 0 then none
  else some (wrapAll width.toNat (splitWs (expandTabs text)))

/-- `wrap_text` from the script: `wrapped if wrapped else [""]`. -/
def wrap_text (text : Str) (width : Int) : Option (List Str) :=
  (pyWrap text width).map (fun w => if w = [] then [[]] else w)

def MAX_CHARS_PER_LINE : Nat := 94

/-- `re.match(r"^(#{1,6})\s+(.*)$", line)`: on success, group 2. -/
def headingMatch (l : Str) : Option Str :=
  let hashes := l.takeWhile (fun c => c = '#')
  let r := l.dropWhile (fun c => c = '#')
  if 1 ≤ hashes.length && hashes.length ≤ 6 then
    match r with
    | c :: _ => if isPySpace c then some (r.dropWhile isPySpace) else none
    | [] => none
  else none

/-- `re.match(r"^(\s*[-*])\s+(.*)$", line)`: on success, group 2. -/
def bulletMatch (l : Str) : Option Str :=
  match l.dropWhile isPySpace with
  | c :: r =>
    if c = '-' || c = '*' then
      match r with
      | d :: _ => if isPySpace d then some (r.dropWhile isPySpace) else none
      | [] => none
    else none
  | [] => none

/-- `re.match(r"^(\s*\d+\.)\s+(.*)$", line)`: on success, the leading
whitespace, the digit run, and group 2 (`\d` restricted to ASCII digits). -/
def numberedMatch (l : Str) : Option (Str × Str × Str) :=
  let ws := l.takeWhile isPySpace
  let r1 := l.dropWhile isPySpace
  let ds := r1.takeWhile Char.isDigit
  match r1.dropWhile Char.isDigit with
  | c0 :: r3 =>
    if c0 = '.' then
      if ds = [] then none
      else
        match r3 with
        | c :: _ => if isPySpace c then some (ws, ds, r3.dropWhile isPySpace) else none
        | [] => none
    else none
  | [] => none

/-- the body of the `for raw in markdown.splitlines()` loop: given the
code-block flag and the lines accumulated so far, process one raw line. -/
def processLine (st : Bool × List Str) (raw : Str) : Option (Bool × List Str) :=
  let inCode := st.1
  let lines := st.2
  let line := pyRstrip raw
  let stripped := pyStrip line
  if stripped.take 3 = ("```").data then
    some (!inCode, lines ++ [[]])
  else if inCode then
    let code_line := if line = [] then [] else line
    (wrap_text code_line ((MAX_CHARS_PER_LINE : Int) - 4)).map fun ws =>
      (inCode, lines ++ ws.map (fun w => if w = [] then [] else ' ' :: ' ' :: ' ' :: ' ' :: w))
  else if stripped = [] then
    some (inCode, lines ++ [[]])
  else
    match headingMatch line with
    | some t =>
      let title := pyUpper (pyStrip t)
      let lines1 := if lines ≠ [] && lines.getLast? ≠ some [] then lines ++ [[]] else lines
      (wrap_text title (MAX_CHARS_PER_LINE : Int)).map fun ws =>
        (inCode, lines1 ++ ws ++ [[]])
    | none =>
      match bulletMatch line with
      | some b =>
        let body := pyStrip b
        (wrap_text body ((MAX_CHARS_PER_LINE : Int) - 2)).map fun ws =>
          (inCode, lines ++ (match ws with
            | [] => []
            | c :: cs => ('-' :: ' ' :: c) :: cs.map (fun k => ' ' :: ' ' :: k)))
      | none =>
        match numberedMatch line with
        | some (ws, ds, b) =>
          let pfx := ws ++ ds ++ ['.', ' ']
          let body := pyStrip b
          (wrap_text body ((MAX_CHARS_PER_LINE : Int) - (pfx.length : Int))).map fun cw =>
            (inCode, lines ++ (match cw with
              | [] => []
              | c :: cs => (pfx ++ c) :: cs.map (fun k => List.replicate pfx.length ' ' ++ k)))
        | none =>
          (wrap_text stripped (MAX_CHARS_PER_LINE : Int)).map fun cw => (inCode, lines ++ cw)

/-- the whole `for` loop of `markdown_to_lines`. -/
def runLines (inCode : Bool) (acc : List Str) : List Str → Option (List Str)
  | [] => some acc
  | l :: ls =>
    match processLine (inCode, acc) l with
    | none => none
    | some (c, acc') => runLines c acc' ls

/-- `while lines and lines[-1] == "": lines.pop()`. -/
def dropTrailBlank (lines : List Str) : List Str :=
  (lines.reverse.dropWhile (fun l => l = [])).reverse

/-- `markdown_to_lines` from the script; `none` models a raised `ValueError`. -/
def markdown_to_lines (md : Str) : Option (List Str) :=
  (runLines false [] (pySplitlines md)).map dropTrailBlank

/-- the list-comprehension slices `lines[i : i + n]`, fuelled by list length. -/
def chunksOfFuel (n : Nat) : Nat → List Str → List (List Str)
  | 0, _ => []
  | _ + 1, [] => []
  | fuel + 1, x :: xs => (x :: xs.take (n - 1)) :: chunksOfFuel n fuel (xs.drop (n - 1))

/-- `paginate` from the script; `none` models the `ValueError` of
`range(0, len(lines), 0)` (unreachable from `main`). -/
def paginate (lines : List Str) (lines_per_page : Nat) : Option (List (List Str)) :=
  if lines = [] then some [[[]]]
  else if lines_per_page = 0 then none
  else some (chunksOfFuel lines_per_page lines.length lines)

def PAGE_WIDTH : Nat := 595
def PAGE_HEIGHT : Nat := 842
def MARGIN_LEFT : Nat := 50
def MARGIN_TOP : Nat := 50
def MARGIN_BOTTOM : Nat := 50
def FONT_SIZE : Nat := 10
def LINE_HEIGHT : Nat := 14
def LINES_PER_PAGE : Nat := (PAGE_HEIGHT - MARGIN_TOP - MARGIN_BOTTOM) / LINE_HEIGHT

/-- `value.encode("latin-1", errors="replace").decode("latin-1")`. -/
def to_latin1 (s : Str) : Str := s.map (fun c => if c.toNat ≤ 255 then c else '?')

/-- `str.replace(old, new)` for a single-character `old`. -/
def replaceChar (old : Char) (new : Str) : Str → Str
  | [] => []
  | c :: cs => (if c = old then new else [c]) ++ replaceChar old new cs

/-- `pdf_escape`: double backslashes first, then escape the parentheses. -/
def pdf_escape (text : Str) : Str :=
  replaceChar ')' ['\\', ')'] (replaceChar '(' ['\\', '('] (replaceChar '\\' ['\\', '\\'] text))

/-- decimal digits of a number, as written by Python `str(n)` / `f"{n}"`. -/
def natStr (n : Nat) : Str := Nat.toDigits 10 n

/-- `f"{n:010d}"` for the cross-reference table. -/
def pad10 (n : Nat) : Str := List.replicate (10 - (natStr n).length) '0' ++ natStr n

/-- `build_page_stream`: the text operators of one page, newline-joined with a
trailing newline. -/
def build_page_stream (page : List Str) : Str :=
  List.intercalate ['\n']
    ([("BT").data,
      ("/F1 ").data ++ natStr FONT_SIZE ++ (" Tf").data,
      ("1 0 0 1 ").data ++ natStr MARGIN_LEFT ++ [' '] ++
        natStr (PAGE_HEIGHT - MARGIN_TOP) ++ (" Tm").data,
      natStr LINE_HEIGHT ++ (" TL").data] ++
     (page.map (fun line =>
        [['('] ++ pdf_escape (to_latin1 line) ++ (") Tj").data, ("T*").data])).flatten ++
     [("ET").data]) ++ ['\n']

def contentObjBody (stream : Str) : Str :=
  ("<< /Length ").data ++ natStr stream.length ++ (" >>\nstream\n").data ++
    stream ++ ("endstream").data

def pageObjBody (content_id : Nat) : Str :=
  ("<< /Type /Page /Parent 2 0 R /MediaBox [0 0 ").data ++ natStr PAGE_WIDTH ++ [' '] ++
    natStr PAGE_HEIGHT ++ ("] /Resources << /Font << /F1 3 0 R >> >> /Contents ").data ++
    natStr content_id ++ (" 0 R >>").data

structure EmitSt where
  objects : List (Nat × Str)
  pageIds : List Nat
  maxId : Nat

/-- the body of `for page in pages` in `generate_pdf`: allocate the page and
content-stream objects and advance `max_object_id`. -/
def addPage (st : EmitSt) (page : List Str) : EmitSt :=
  let page_id := st.maxId + 1
  let content_id := st.maxId + 2
  let stream := build_page_stream page
  { objects := (page_id, pageObjBody content_id) ::
      (content_id, contentObjBody stream) :: st.objects
    pageIds := st.pageIds ++ [page_id]
    maxId := content_id }

def fontObj : Str := ("<< /Type /Font /Subtype /Type1 /BaseFont /Helvetica >>").data

def initSt : EmitSt := ⟨[(3, fontObj)], [], 3⟩

def buildSt (pages : List (List Str)) : EmitSt := pages.foldl addPage initSt

/-- `" ".join(f"{page_id} 0 R" for page_id in page_ids)`. -/
def kidsStr (pageIds : List Nat) : Str :=
  List.intercalate [' '] (pageIds.map (fun i => natStr i ++ (" 0 R").data))

def pagesObjBody (pageIds : List Nat) : Str :=
  ("<< /Type /Pages /Kids [ ").data ++ kidsStr pageIds ++ (" ] /Count ").data ++
    natStr pageIds.length ++ (" >>").data

def catalogObjBody : Str := ("<< /Type /Catalog /Pages 2 0 R >>").data

/-- the complete object dictionary after the loop and the two fixed entries. -/
def allObjects (pages : List (List Str)) : List (Nat × Str) :=
  (1, catalogObjBody) :: (2, pagesObjBody (buildSt pages).pageIds) :: (buildSt pages).objects

def objBody (pages : List (List Str)) (i : Nat) : Str :=
  ((allObjects pages).lookup i).getD []

/-- one object-header line `f"{object_id} 0 obj\n"`. -/
def objHeader (i : Nat) : Str := natStr i ++ (" 0 obj\n").data

/-- the `for object_id in range(1, max_object_id + 1)` serialization loop:
returns the output buffer and the recorded `(id, offset)` pairs. -/
def emitLoop (body : Nat → Str) : List Nat → Str → Str × List (Nat × Nat)
  | [], acc => (acc, [])
  | i :: is, acc =>
    let off := acc.length
    let r := emitLoop body is (acc ++ objHeader i ++ body i ++ ("\nendobj\n").data)
    (r.1, (i, off) :: r.2)

def pdfHeader : Str :=
  ("%PDF-1.4\n%").data ++
    [Char.ofNat 0xe2, Char.ofNat 0xe3, Char.ofNat 0xcf, Char.ofNat 0xd3] ++ ['\n']

def bodyOut (pages : List (List Str)) : Str × List (Nat × Nat) :=
  emitLoop (objBody pages) (List.range' 1 (buildSt pages).maxId) pdfHeader

/-- the offset recorded for object `i` in the cross-reference table. -/
def offsetOf (pages : List (List Str)) (i : Nat) : Nat :=
  ((bodyOut pages).2.lookup i).getD 0

/-- `xref_offset = len(output)` just before the `xref` keyword is written. -/
def xrefOffset (pages : List (List Str)) : Nat := (bodyOut pages).1.length

/-- `/Size`: `max_object_id + 1`. -/
def trailerSize (pages : List (List Str)) : Nat := (buildSt pages).maxId + 1

def xrefSection (pages : List (List Str)) : Str :=
  ("xref\n0 ").data ++ natStr (trailerSize pages) ++ ['\n'] ++
    ("0000000000 65535 f \n").data ++
    ((bodyOut pages).2.map (fun p => pad10 p.2 ++ (" 00000 n \n").data)).flatten

def trailerSection (pages : List (List Str)) : Str :=
  ("trailer\n<< /Size ").data ++ natStr (trailerSize pages) ++
    (" /Root 1 0 R >>\nstartxref\n").data ++ natStr (xrefOffset pages) ++
    ("\n%%EOF\n").data

/-- `generate_pdf` as a pure function from the page list to the output bytes. -/
def generate_pdf (pages : List (List Str)) : Str :=
  (bodyOut pages).1 ++ xrefSection pages ++ trailerSection pages

def usageMsg : Str :=
  ("Usage: python3 scripts/generate_deployment_pdf.py <input.md> <output.pdf>").data

def notFoundMsg (p : Str) : Str := ("Input file not found: ").data ++ p

def confirmMsg (p : Str) (n : Nat) : Str :=
  ("PDF generated: ").data ++ p ++ (" (").data ++ natStr n ++ (" pages)").data

/-- result of one run of `main`: exit status, printed messages, written files. -/
structure RunResult where
  exitCode : Nat
  printed : List Str
  written : List (Str × Str)
deriving DecidableEq

/-- `main`, over the argument vector (`sys.argv`, program name included) and a
filesystem mapping paths to contents; `none` models an uncaught exception. -/
def mainRun (argv : List Str) (fs : Str → Option Str) : Option RunResult :=
  if argv.length ≠ 3 then some ⟨1, [usageMsg], []⟩
  else
    let input_path := argv.getD 1 []
    let output_path := argv.getD 2 []
    match fs input_path with
    | none => some ⟨1, [notFoundMsg input_path], []⟩
    | some markdown =>
      match markdown_to_lines markdown with
      | none => none
      | some lines =>
        match paginate lines LINES_PER_PAGE with
        | none => none
        | some pages =>
          some ⟨0, [confirmMsg output_path pages.length], [(output_path, generate_pdf pages)]⟩

/-! ### Generic helper lemmas -/

theorem lookup_mem {l : List (Nat × Nat)} {k v : Nat} (h : l.lookup k = some v) : (k, v) ∈ l := by
  induction l with
  | nil => simp [List.lookup] at h
  | cons p t ih =>
    cases p with
    | mk a b =>
      rw [List.lookup] at h
      by_cases hk : k == a
      · simp only [hk, if_pos] at h
        simp only [beq_iff_eq] at hk
        simp_all
      · simp only [hk, if_neg, Bool.false_eq_true] at h
        right
        exact ih h

theorem getLast?_mem {α : Type} {l : List α} {c : α} (h : l.getLast? = some c) : c ∈ l := by
  induction l with
  | nil => simp at h
  | cons a t ih =>
    cases t with
    | nil => simp_all
    | cons b u =>
      rw [List.getLast?_cons_cons] at h
      exact List.mem_cons_of_mem a (ih h)

theorem toDigitsCore_len (b : Nat) :
    ∀ fuel n acc, fuel ≠ 0 → acc.length < (Nat.toDigitsCore b fuel n acc).length := by
  intro fuel
  induction fuel with
  | zero => intro n acc hf; exact absurd rfl hf
  | succ f ih =>
    intro n acc _
    rw [Nat.toDigitsCore]
    by_cases h : n / b = 0
    · simp [h]
    · simp only [h, if_neg]
      cases f with
      | zero => simp [Nat.toDigitsCore]
      | succ g =>
        calc acc.length < (Nat.digitChar (n % b) :: acc).length := by simp
          _ < _ := ih (n / b) (Nat.digitChar (n % b) :: acc) (Nat.succ_ne_zero g)

theorem natStr_ne_nil (n : Nat) : natStr n ≠ [] := by
  have h := toDigitsCore_len 10 (n + 1) n [] (Nat.succ_ne_zero n)
  intro hc
  unfold natStr Nat.toDigits at hc
  rw [hc] at h
  simp at h

theorem take_prefix_extend {a b h : Str} {off n : Nat}
    (ht : (a.drop off).take n = h) (hn : h.length = n) :
    ((a ++ b).drop off).take n = h := by
  by_cases hz : n = 0
  · subst hz
    have h0 : h = [] := List.length_eq_zero.mp hn
    simp [h0]
  · have hlen : n ≤ (a.drop off).length := by
      have h1 := congrArg List.length ht
      rw [List.length_take, hn] at h1
      exact min_eq_left_iff.mp h1
    have hoff : off ≤ a.length := by
      have h2 := List.length_drop off a
      omega
    rw [List.drop_append_of_le_length hoff, List.take_append_of_le_length hlen, ht]

/-! ### C7: pdf_escape -/

/-- the per-character code that `pdf_escape` amounts to. -/
def escChar (c : Char) : Str :=
  if c = '\\' || c = '(' || c = ')' then ['\\', c] else [c]

theorem replaceChar_append (o : Char) (n a b : Str) :
    replaceChar o n (a ++ b) = replaceChar o n a ++ replaceChar o n b := by
  induction a with
  | nil => simp [replaceChar]
  | cons c cs ih => simp [replaceChar, ih]

theorem pdf_escape_cons (c : Char) (s : Str) :
    pdf_escape (c :: s) = escChar c ++ pdf_escape s := by
  unfold pdf_escape escChar
  rw [show (c :: s) = [c] ++ s from rfl]
  rw [replaceChar_append, replaceChar_append, replaceChar_append]
  by_cases h1 : c = '\\'
  · subst h1; simp [replaceChar]
  · by_cases h2 : c = '('
    · subst h2; simp [replaceChar]
    · by_cases h3 : c = ')'
      · subst h3; simp [replaceChar]
      · simp [replaceChar, h1, h2, h3]

theorem pdf_escape_flat (s : Str) : pdf_escape s = (s.map escChar).flatten := by
  induction s with
  | nil => rfl
  | cons c cs ih => rw [pdf_escape_cons, ih]; simp

theorem escChar_ne_nil (c : Char) : escChar c ≠ [] := by
  unfold escChar
  split <;> simp

theorem escChar_cases (c : Char) :
    escChar c = ['\\', c] ∨ (escChar c = [c] ∧ c ≠ '\\') := by
  unfold escChar
  by_cases h : (c = '\\' || c = '(' || c = ')') = true
  · rw [if_pos h]
    exact Or.inl rfl
  · rw [if_neg h]
    refine Or.inr ⟨rfl, ?_⟩
    intro hc
    simp [hc] at h

theorem pdf_escape_inj : ∀ s t : Str, pdf_escape s = pdf_escape t → s = t := by
  intro s
  induction s with
  | nil =>
    intro t h
    cases t with
    | nil => rfl
    | cons b bs =>
      rw [show pdf_escape ([] : Str) = [] from rfl, pdf_escape_cons] at h
      exact absurd (List.append_eq_nil.mp h.symm).1 (escChar_ne_nil b)
  | cons a as ih =>
    intro t h
    cases t with
    | nil =>
      rw [show pdf_escape ([] : Str) = [] from rfl, pdf_escape_cons] at h
      exact absurd (List.append_eq_nil.mp h).1 (escChar_ne_nil a)
    | cons b bs =>
      rw [pdf_escape_cons, pdf_escape_cons] at h
      rcases escChar_cases a with hA | ⟨hA, hA'⟩ <;> rcases escChar_cases b with hB | ⟨hB, hB'⟩
      · rw [hA, hB] at h
        simp only [List.cons_append, List.nil_append, List.cons.injEq] at h
        rw [h.2.1, ih bs h.2.2]
      · rw [hA, hB] at h
        simp only [List.cons_append, List.nil_append, List.cons.injEq] at h
        exact absurd h.1.symm hB'
      · rw [hA, hB] at h
        simp only [List.cons_append, List.nil_append, List.cons.injEq] at h
        exact absurd h.1 hA'
      · rw [hA, hB] at h
        simp only [List.cons_append, List.nil_append, List.cons.injEq] at h
        rw [h.1, ih bs h.2]

/-- C7: `pdf_escape` doubles every backslash first and only afterwards escapes
the parentheses, so each input character maps independently to its escape code
(backslashes introduced for parentheses are never re-escaped), and the escaping
is injective: the original string is uniquely recoverable. -/
theorem c7_escape_order_injective :
    (∀ s : Str, pdf_escape s = (s.map escChar).flatten) ∧
    (∀ s t : Str, pdf_escape s = pdf_escape t → s = t) :=
  ⟨pdf_escape_flat, pdf_escape_inj⟩

/-- C7 witness: the respected escape of a concrete string containing all three
special characters, recovered through injectivity. -/
theorem c7_escape_witness : (("a(b)c\\").data : Str) = ("a(b)c\\").data :=
  c7_escape_order_injective.2 _ _ (by decide)

/-! ### C5: paginate -/

theorem chunksOfFuel_flatten (n : Nat) :
    ∀ fuel l, l.length ≤ fuel → (chunksOfFuel n fuel l).flatten = l := by
  intro fuel
  induction fuel with
  | zero =>
    intro l hl
    rw [List.length_eq_zero.mp (Nat.le_zero.mp hl)]
    rfl
  | succ f ih =>
    intro l hl
    cases l with
    | nil => rfl
    | cons x xs =>
      rw [chunksOfFuel, List.flatten_cons]
      have hrec : (xs.drop (n - 1)).length ≤ f := by
        have h1 := List.length_drop (n - 1) xs
        simp at hl
        omega
      rw [ih (xs.drop (n - 1)) hrec]
      simp [List.cons_append, List.take_append_drop]

theorem chunksOfFuel_ne_nil_imp (n : Nat) (fuel : Nat) (l : List Str)
    (h : chunksOfFuel n fuel l ≠ []) : l ≠ [] := by
  intro hl
  subst hl
  cases fuel <;> simp [chunksOfFuel] at h

theorem chunksOfFuel_le (n : Nat) (hn : 0 < n) :
    ∀ fuel l, ∀ c ∈ chunksOfFuel n fuel l, c.length ≤ n := by
  intro fuel
  induction fuel with
  | zero => intro l c hc; simp [chunksOfFuel] at hc
  | succ f ih =>
    intro l c hc
    cases l with
    | nil => simp [chunksOfFuel] at hc
    | cons x xs =>
      rw [chunksOfFuel] at hc
      rcases List.mem_cons.mp hc with h | h
      · subst h
        simp [List.length_take]
        omega
      · exact ih (xs.drop (n - 1)) c h

theorem chunksOfFuel_full (n : Nat) (hn : 0 < n) :
    ∀ fuel l, ∀ c ∈ (chunksOfFuel n fuel l).dropLast, c.length = n := by
  intro fuel
  induction fuel with
  | zero => intro l c hc; simp [chunksOfFuel] at hc
  | succ f ih =>
    intro l c hc
    cases l with
    | nil => simp [chunksOfFuel] at hc
    | cons x xs =>
      rw [chunksOfFuel] at hc
      rcases hrest : chunksOfFuel n f (xs.drop (n - 1)) with - | ⟨r, rs⟩
      · rw [hrest] at hc
        simp at hc
      · rw [hrest] at hc
        rw [List.dropLast_cons₂] at hc
        rcases List.mem_cons.mp hc with h | h
        · subst h
          have hne : xs.drop (n - 1) ≠ [] := by
            apply chunksOfFuel_ne_nil_imp n f
            rw [hrest]
            simp
          have hlen : 0 < (xs.drop (n - 1)).length := List.length_pos.mpr hne
          have h2 := List.length_drop (n - 1) xs
          simp [List.length_take]
          omega
        · rw [← hrest] at h
          exact ih (xs.drop (n - 1)) c h

theorem paginate_some (L : List Str) (n : Nat) (hn : 0 < n) :
    paginate L n = some (if L = [] then [[[]]] else chunksOfFuel n L.length L) := by
  unfold paginate
  by_cases hL : L = []
  · simp [hL]
  · simp [hL, Nat.pos_iff_ne_zero.mp hn]

/-- C5: for positive page size, `paginate` of an empty line sequence is one page
holding one empty line; otherwise it splits the sequence into consecutive
chunks whose concatenation is the input, each at most the page size, and all
chunks except possibly the last exactly full. -/
theorem c5_paginate_spec (L : List Str) (n : Nat) (hn : 0 < n) :
    ∃ P, paginate L n = some P ∧
      (L = [] → P = [[[]]]) ∧
      (L ≠ [] → P.flatten = L ∧ (∀ c ∈ P, c.length ≤ n) ∧ ∀ c ∈ P.dropLast, c.length = n) := by
  refine ⟨if L = [] then [[[]]] else chunksOfFuel n L.length L, paginate_some L n hn, ?_, ?_⟩
  · intro h
    simp [h]
  · intro h
    simp only [h, if_neg, if_false]
    exact ⟨chunksOfFuel_flatten n L.length L le_rfl,
      fun c hc => chunksOfFuel_le n hn L.length L c hc,
      fun c hc => chunksOfFuel_full n hn L.length L c hc⟩

/-- C5 witness: a concrete three-line pagination at page size two. -/
theorem c5_paginate_witness :
    ∃ P, paginate [['a'], ['b'], ['c']] 2 = some P ∧
      ([['a'], ['b'], ['c']] = ([] : List Str) → P = [[[]]]) ∧
      ([['a'], ['b'], ['c']] ≠ ([] : List Str) → P.flatten = [['a'], ['b'], ['c']] ∧
        (∀ c ∈ P, c.length ≤ 2) ∧ ∀ c ∈ P.dropLast, c.length = 2) :=
  c5_paginate_spec [['a'], ['b'], ['c']] 2 (by decide)

/-! ### C1: object counts, kids, page count -/

theorem foldl_addPage_maxId (pages : List (List Str)) :
    ∀ st : EmitSt, (pages.foldl addPage st).maxId = st.maxId + 2 * pages.length := by
  induction pages with
  | nil => intro st; simp
  | cons p ps ih =>
    intro st
    rw [List.foldl_cons, ih]
    simp only [addPage, List.length_cons]
    omega

theorem foldl_addPage_pageIds (pages : List (List Str)) :
    ∀ st : EmitSt, (pages.foldl addPage st).pageIds =
      st.pageIds ++ (List.range pages.length).map (fun k => st.maxId + 2 * k + 1) := by
  induction pages with
  | nil => intro st; simp
  | cons p ps ih =>
    intro st
    rw [List.foldl_cons, ih]
    simp only [addPage, List.length_cons]
    rw [List.range_succ_eq_map]
    simp only [List.map_cons, List.map_map]
    rw [List.append_assoc]
    simp only [List.singleton_append]
    have hf : ((fun k => st.maxId + 2 * k + 1) ∘ Nat.succ) =
        (fun k => st.maxId + 2 + 2 * k + 1) := by
      funext k
      simp only [Function.comp]
      omega
    rw [hf]

theorem buildSt_maxId (pages : List (List Str)) :
    (buildSt pages).maxId = 2 * pages.length + 3 := by
  unfold buildSt
  rw [foldl_addPage_maxId]
  simp only [initSt]
  omega

theorem buildSt_pageIds (pages : List (List Str)) :
    (buildSt pages).pageIds = (List.range pages.length).map (fun k => 2 * k + 4) := by
  unfold buildSt
  rw [foldl_addPage_pageIds]
  simp only [initSt, List.nil_append]
  have hf : (fun k => (3 : Nat) + 2 * k + 1) = (fun k => 2 * k + 4) := by
    funext k
    omega
  rw [hf]

/-- C1 (amended): the trailer object count `/Size` is `max_object_id + 1`, which
is `2 * pages + 4` (the extra object over the claimed `2 * pages + 3` is the
free-list head, object 0, which `/Size` must count); the `/Kids` array lists
exactly one page object id per page, in page order (ids 4, 6, 8, ...), and
`/Count` (written as the length of the page-id list) equals the page count. -/
theorem c1_size_kids_count (pages : List (List Str)) :
    trailerSize pages = 2 * pages.length + 4 ∧
    (buildSt pages).pageIds = (List.range pages.length).map (fun k => 2 * k + 4) ∧
    (buildSt pages).pageIds.length = pages.length := by
  refine ⟨?_, buildSt_pageIds pages, ?_⟩
  · unfold trailerSize
    rw [buildSt_maxId]
  · rw [buildSt_pageIds]
    simp

/-- C1 counterexample: with one page the trailer writes `/Size 6`, not the
claimed `(1 × 2) + 3 = 5`. -/
theorem c1_size_counterexample :
    trailerSize [[[]]] = 6 ∧ decide (trailerSize [[[]]] = 2 * 1 + 3) = false := by
  constructor
  · decide
  · decide

/-! ### C6: cross-reference table offsets -/

theorem emitLoop_acc (body : Nat → Str) :
    ∀ ids acc, ∃ t, (emitLoop body ids acc).1 = acc ++ t := by
  intro ids
  induction ids with
  | nil => intro acc; exact ⟨[], by simp [emitLoop]⟩
  | cons i is ih =>
    intro acc
    obtain ⟨t, ht⟩ := ih (acc ++ objHeader i ++ body i ++ ("\nendobj\n").data)
    refine ⟨objHeader i ++ (body i ++ (("\nendobj\n").data ++ t)), ?_⟩
    rw [emitLoop]
    simp only at ht ⊢
    rw [ht]
    simp [List.append_assoc]

theorem emitLoop_keys (body : Nat → Str) :
    ∀ ids acc, (emitLoop body ids acc).2.map Prod.fst = ids := by
  intro ids
  induction ids with
  | nil => intro acc; simp [emitLoop]
  | cons i is ih =>
    intro acc
    rw [emitLoop]
    simp only [List.map_cons]
    rw [ih]

theorem emitLoop_slice (body : Nat → Str) :
    ∀ ids acc i off, (i, off) ∈ (emitLoop body ids acc).2 →
      ((emitLoop body ids acc).1.drop off).take (objHeader i).length = objHeader i := by
  intro ids
  induction ids with
  | nil => intro acc i off h; simp [emitLoop] at h
  | cons j js ih =>
    intro acc i off h
    rw [emitLoop] at h ⊢
    simp only [List.mem_cons] at h
    rcases h with h | h
    · injection h with h1 h2
      rw [h1, h2]
      obtain ⟨t, ht⟩ := emitLoop_acc body js
        (acc ++ objHeader j ++ body j ++ ("\nendobj\n").data)
      simp only at ht ⊢
      rw [ht]
      have hshape : acc ++ objHeader j ++ body j ++ ("\nendobj\n").data ++ t =
          acc ++ (objHeader j ++ (body j ++ (("\nendobj\n").data ++ t))) := by
        simp [List.append_assoc]
      rw [hshape, List.drop_left, List.take_left]
    · exact ih _ i off h

theorem mem_keys_lookup (l : List (Nat × Nat)) (i : Nat)
    (h : i ∈ l.map Prod.fst) : ∃ v, l.lookup i = some v := by
  induction l with
  | nil => simp at h
  | cons p t ih =>
    cases p with
    | mk a b =>
      simp only [List.map_cons, List.mem_cons] at h
      by_cases hia : i = a
      · exact ⟨b, by simp [List.lookup, hia]⟩
      · have hbeq : (i == a) = false := beq_eq_false_iff_ne.mpr hia
        rcases h with h | h
        · exact absurd h hia
        · obtain ⟨v, hv⟩ := ih h
          exact ⟨v, by simp [List.lookup, hbeq, hv]⟩

theorem take_eq_of_length_eq {p r : Str} {n : Nat} (h : p.length = n) : (p ++ r).take n = p := by
  subst h
  exact List.take_left p r

theorem drop_eq_of_length_eq {p r : Str} {n : Nat} (h : p.length = n) : (p ++ r).drop n = r := by
  subst h
  exact List.drop_left p r

theorem generate_pdf_slice (pages : List (List Str)) (i off : Nat)
    (h : (i, off) ∈ (bodyOut pages).2) :
    ((generate_pdf pages).drop off).take (objHeader i).length = objHeader i := by
  have h1 : (((bodyOut pages).1).drop off).take (objHeader i).length = objHeader i := by
    unfold bodyOut at h ⊢
    exact emitLoop_slice (objBody pages) (List.range' 1 (buildSt pages).maxId) pdfHeader i off h
  unfold generate_pdf
  rw [List.append_assoc]
  exact take_prefix_extend h1 rfl

theorem drop_xrefOffset (pages : List (List Str)) :
    (generate_pdf pages).drop (xrefOffset pages) = xrefSection pages ++ trailerSection pages := by
  unfold generate_pdf xrefOffset
  rw [List.append_assoc, List.drop_left]

theorem xref_at_offset (pages : List (List Str)) :
    ((generate_pdf pages).drop (xrefOffset pages)).take 4 = ("xref").data := by
  rw [drop_xrefOffset]
  unfold xrefSection
  rw [show ("xref\n0 ").data = ("xref").data ++ ("\n0 ").data from rfl]
  simp only [List.append_assoc]
  exact take_eq_of_length_eq (by decide)

theorem sentinel_at_offset (pages : List (List Str)) :
    ((generate_pdf pages).drop
        (xrefOffset pages + (8 + (natStr (trailerSize pages)).length))).take 20 =
      ("0000000000 65535 f \n").data := by
  rw [← List.drop_drop, drop_xrefOffset]
  have heq : xrefSection pages ++ trailerSection pages =
      (("xref\n0 ").data ++ natStr (trailerSize pages) ++ ['\n']) ++
        (("0000000000 65535 f \n").data ++
          (((bodyOut pages).2.map (fun p => pad10 p.2 ++ (" 00000 n \n").data)).flatten ++
            trailerSection pages)) := by
    unfold xrefSection
    simp [List.append_assoc]
  rw [heq]
  have hl : (("xref\n0 ").data ++ natStr (trailerSize pages) ++ ['\n']).length =
      8 + (natStr (trailerSize pages)).length := by
    have h7 : (("xref\n0 ").data).length = 7 := by decide
    simp [List.length_append, h7]
    omega
  rw [drop_eq_of_length_eq hl]
  exact take_eq_of_length_eq (by decide)

theorem offsetOf_mem (pages : List (List Str)) (i : Nat) (h1 : 1 ≤ i)
    (h2 : i ≤ (buildSt pages).maxId) : (i, offsetOf pages i) ∈ (bodyOut pages).2 := by
  have hkeys : (bodyOut pages).2.map Prod.fst = List.range' 1 (buildSt pages).maxId := by
    unfold bodyOut
    exact emitLoop_keys (objBody pages) (List.range' 1 (buildSt pages).maxId) pdfHeader
  have hmem : i ∈ (bodyOut pages).2.map Prod.fst := by
    rw [hkeys]
    rw [List.mem_range'_1]
    exact ⟨h1, by omega⟩
  obtain ⟨v, hv⟩ := mem_keys_lookup _ i hmem
  have : offsetOf pages i = v := by
    unfold offsetOf
    rw [hv]
    rfl
  rw [this]
  exact lookup_mem hv

/-- C6: the serialization loop emits object ids 1 through the maximum id in
order; for each id, the byte offset recorded in the cross-reference table
points exactly at that object's `<id> 0 obj` header in the output; the table
is the free-list sentinel for object 0 followed by one 10-digit zero-padded
entry per object; and the value written after `startxref` (`xrefOffset`) is
the byte offset at which the `xref` keyword begins, with the sentinel on the
line after the two-number header. -/
theorem c6_xref_structure (pages : List (List Str)) :
    ((bodyOut pages).2.map Prod.fst = List.range' 1 (buildSt pages).maxId) ∧
    (∀ i, 1 ≤ i → i ≤ (buildSt pages).maxId →
      (i, offsetOf pages i) ∈ (bodyOut pages).2 ∧
      ((generate_pdf pages).drop (offsetOf pages i)).take (objHeader i).length = objHeader i) ∧
    (xrefSection pages = ("xref\n0 ").data ++ natStr (trailerSize pages) ++ ['\n'] ++
      ("0000000000 65535 f \n").data ++
      ((bodyOut pages).2.map (fun p => pad10 p.2 ++ (" 00000 n \n").data)).flatten) ∧
    ((generate_pdf pages).drop (xrefOffset pages)).take 4 = ("xref").data ∧
    ((generate_pdf pages).drop
        (xrefOffset pages + (8 + (natStr (trailerSize pages)).length))).take 20 =
      ("0000000000 65535 f \n").data := by
  refine ⟨?_, ?_, rfl, xref_at_offset pages, sentinel_at_offset pages⟩
  · unfold bodyOut
    exact emitLoop_keys (objBody pages) (List.range' 1 (buildSt pages).maxId) pdfHeader
  · intro i hi1 hi2
    have hm := offsetOf_mem pages i hi1 hi2
    exact ⟨hm, generate_pdf_slice pages i (offsetOf pages i) hm⟩

/-- C6 witness: in the one-page PDF, the offset recorded for object 3 (the
font) points at the bytes `3 0 obj`. -/
theorem c6_xref_witness :
    ((generate_pdf [[[]]]).drop (offsetOf [[[]]] 3)).take (objHeader 3).length = objHeader 3 :=
  ((c6_xref_structure [[[]]]).2.1 3 (by decide) (by decide)).2

/-! ### C8: main -/

theorem main_spec (argv : List Str) (fs : Str → Option Str) :
    (argv.length ≠ 3 → mainRun argv fs = some ⟨1, [usageMsg], []⟩) ∧
    (argv.length = 3 → fs (argv.getD 1 []) = none →
      mainRun argv fs = some ⟨1, [notFoundMsg (argv.getD 1 [])], []⟩) ∧
    (∀ content lines, argv.length = 3 → fs (argv.getD 1 []) = some content →
      markdown_to_lines content = some lines →
      ∃ pages, paginate lines LINES_PER_PAGE = some pages ∧
        mainRun argv fs = some ⟨0, [confirmMsg (argv.getD 2 []) pages.length],
          [(argv.getD 2 [], generate_pdf pages)]⟩) := by
  refine ⟨?_, ?_, ?_⟩
  · intro h
    unfold mainRun
    rw [if_pos h]
  · intro h3 hfs
    have hne : ¬ (argv.length ≠ 3) := fun hc => hc h3
    unfold mainRun
    rw [if_neg hne]
    simp only [hfs]
  · intro content lines h3 hfs hml
    have hpag := paginate_some lines LINES_PER_PAGE (by decide)
    refine ⟨if lines = [] then [[[]]] else chunksOfFuel LINES_PER_PAGE lines.length lines,
      hpag, ?_⟩
    have hne : ¬ (argv.length ≠ 3) := fun hc => hc h3
    unfold mainRun
    rw [if_neg hne]
    simp only [hfs, hml, hpag]

/-- C8 witness: a concrete successful run writes the PDF, prints the
confirmation with the page count, and exits 0. -/
theorem c8_main_witness :
    mainRun [("p").data, ("i").data, ("o").data]
      (fun q => if q = ("i").data then some (("hello").data) else none) =
      some ⟨0, [confirmMsg (("o").data) 1], [((("o").data), generate_pdf [[("hello").data]])]⟩ := by
  obtain ⟨pages, hp, hm⟩ :=
    (main_spec [("p").data, ("i").data, ("o").data]
      (fun q => if q = ("i").data then some (("hello").data) else none)).2.2
      (("hello").data) [("hello").data] (by decide) (by decide) (by decide)
  have hp2 : paginate [("hello").data] LINES_PER_PAGE = some [[("hello").data]] := by decide
  rw [hp] at hp2
  have hpages : pages = [[("hello").data]] := Option.some_inj.mp hp2
  rw [hpages] at hm
  exact hm

set_option maxRecDepth 10000 in
/-- C8 counterexample: with exactly two user arguments and an existing input
file whose content is a numbered item with a 92-digit label, the conversion
raises (wrap width 0) before any write, so the run neither writes the output
nor returns status 0 — refuting "on every other run it writes the PDF bytes
... and returns exit status 0". -/
theorem c8_main_counterexample :
    ([("p").data, ("i").data, ("o").data].length = 3) ∧
    ((fun q => if q = ("i").data then some (List.replicate 92 '1' ++ ('.' :: ' ' :: ['x']))
        else none) (("i").data)).isSome = true ∧
    mainRun [("p").data, ("i").data, ("o").data]
      (fun q => if q = ("i").data then some (List.replicate 92 '1' ++ ('.' :: ' ' :: ['x']))
        else none) = none := by
  refine ⟨by decide, by decide, by decide⟩

/-! ### C9: fence lines with trailing text -/

/-- C9: any line whose stripped form merely starts with three backticks — an
info-string fence like "```python" included — toggles the code-block flag and
appends exactly one empty line, discarding the rest of the line. -/
theorem c9_fence_toggle (inCode : Bool) (acc : List Str) (raw : Str)
    (h : (pyStrip (pyRstrip raw)).take 3 = ("```").data) :
    processLine (inCode, acc) raw = some (!inCode, acc ++ [[]]) := by
  unfold processLine
  simp only [h]
  simp

/-- C9 witness: a fence carrying an info string toggles the flag and emits one
blank line. -/
theorem c9_fence_witness :
    processLine (false, []) (("```python").data) = some (true, [[]]) :=
  c9_fence_toggle false [] (("```python").data) (by decide)

/-! ### C3: fenced-code-only document -/

/-- C3 counterexample: the document "```\ncode\n```" does not produce the
single line "    code"; its output also contains the blank line emitted by the
opening fence. -/
theorem c3_code_block_counterexample :
    markdown_to_lines (("```\ncode\n```").data) = some [[], ("    code").data] ∧
    decide (markdown_to_lines (("```\ncode\n```").data) = some [("    code").data]) = false := by
  constructor
  · decide
  · decide

/-- C3 (amended): the fence-only document yields a blank line (from the opening
fence) followed by the content line "    code" with its four-space indent; the
closing fence's blank line is trimmed as trailing, and no backtick appears
anywhere in the output. -/
theorem c3_code_block_amended :
    markdown_to_lines (("```\ncode\n```").data) = some [[], ("    code").data] ∧
    (([[], ("    code").data] : List Str).all (fun l => l.all (fun c => c.toNat != 96))) = true := by
  constructor
  · decide
  · decide

/-! ### C10: non-totality of the formatter -/

set_option maxRecDepth 10000 in
/-- C10: the formatter is not total: a numbered item whose matched prefix
(digits, dot, space) reaches the maximum width makes the wrap width
`94 - len(prefix)` non-positive, and `textwrap.wrap` raises `ValueError`
(modelled as `none`) instead of returning lines. -/
theorem c10_wrap_not_total :
    wrap_text ['x'] ((94 : Int) - 94) = none ∧
    markdown_to_lines (List.replicate 92 '1' ++ ('.' :: ' ' :: ['x'])) = none := by
  constructor
  · decide
  · decide

/-! ### C2: numbered items -/

theorem dropWhile_head_false {p : Char → Bool} :
    ∀ {l : Str} {c : Char} {t : Str}, List.dropWhile p l = c :: t → p c = false := by
  intro l
  induction l with
  | nil => intro c t h; simp [List.dropWhile] at h
  | cons a as ih =>
    intro c t h
    rw [List.dropWhile_cons] at h
    by_cases hp : p a
    · rw [if_pos hp] at h
      exact ih h
    · rw [if_neg hp] at h
      injection h with h1 _
      rw [← h1]
      exact Bool.eq_false_iff.mpr hp

theorem dropWhile_idem (p : Char → Bool) (l : Str) :
    (l.dropWhile p).dropWhile p = l.dropWhile p := by
  rcases hd : l.dropWhile p with - | ⟨c, t⟩
  · rfl
  · rw [List.dropWhile_cons]
    simp [dropWhile_head_false hd]

theorem pyRstrip_idem (l : Str) : pyRstrip (pyRstrip l) = pyRstrip l := by
  unfold pyRstrip
  rw [List.reverse_reverse, dropWhile_idem]

theorem pyStrip_rstrip (raw : Str) :
    pyStrip (pyRstrip raw) = (pyRstrip raw).dropWhile isPySpace := by
  unfold pyStrip pyLstrip
  rw [pyRstrip_idem]

theorem digit_ne_hash {c : Char} (h : c.isDigit = true) : c ≠ '#' := by
  intro hc
  rw [hc] at h
  exact absurd h (by decide)

theorem digit_ne_dash {c : Char} (h : c.isDigit = true) : c ≠ '-' := by
  intro hc
  rw [hc] at h
  exact absurd h (by decide)

theorem digit_ne_star {c : Char} (h : c.isDigit = true) : c ≠ '*' := by
  intro hc
  rw [hc] at h
  exact absurd h (by decide)

/-- the backtick character, written without a bare backtick token. -/
def tick : Char := ("`").data.headD ' '

theorem digit_ne_tick {c : Char} (h : c.isDigit = true) : c ≠ tick := by
  intro hc
  rw [hc] at h
  exact absurd h (by decide)

theorem pySpace_ne_hash {c : Char} (h : isPySpace c = true) : c ≠ '#' := by
  intro hc
  rw [hc] at h
  exact absurd h (by decide)

theorem numberedMatch_some {l ws ds b : Str} (h : numberedMatch l = some (ws, ds, b)) :
    ws = l.takeWhile isPySpace ∧
    ds = (l.dropWhile isPySpace).takeWhile Char.isDigit ∧
    ds ≠ [] ∧
    ∃ r3, (l.dropWhile isPySpace).dropWhile Char.isDigit = '.' :: r3 ∧
      b = r3.dropWhile isPySpace ∧ ∃ c cs, r3 = c :: cs ∧ isPySpace c = true := by
  unfold numberedMatch at h
  simp only [] at h
  rcases hd : (l.dropWhile isPySpace).dropWhile Char.isDigit with - | ⟨c0, r3⟩
  · rw [hd] at h
    simp at h
  · rw [hd] at h
    simp only at h
    by_cases hc0 : c0 = '.'
    · rw [if_pos hc0] at h
      subst hc0
      by_cases hds : (l.dropWhile isPySpace).takeWhile Char.isDigit = []
      · rw [if_pos hds] at h
        simp at h
      · rw [if_neg hds] at h
        rcases hr3 : r3 with - | ⟨c, cs⟩
        · rw [hr3] at h
          simp at h
        · rw [hr3] at h
          simp only [] at h
          by_cases hcws : isPySpace c = true
          · rw [if_pos hcws] at h
            injection h with h2
            injection h2 with hws h3
            injection h3 with hds2 hb
            refine ⟨hws.symm, hds2.symm, hds2 ▸ hds, c :: cs, rfl, ?_, c, cs, rfl, hcws⟩
            rw [← hb]
          · rw [if_neg (by simpa using hcws)] at h
            simp at h
    · rw [if_neg hc0] at h
      simp at h

theorem headingMatch_none_of_head {l : Str} {c : Char} {t : Str}
    (h : l = c :: t) (hc : c ≠ '#') : headingMatch l = none := by
  subst h
  simp [headingMatch, List.takeWhile_cons, hc]

theorem bulletMatch_none {l : Str} {d : Char} {r : Str}
    (h : l.dropWhile isPySpace = d :: r) (h1 : d ≠ '-') (h2 : d ≠ '*') :
    bulletMatch l = none := by
  unfold bulletMatch
  rw [h]
  simp [h1, h2]

theorem wrap_text_pos (t : Str) (w : Int) (hw : 0 < w) :
    ∃ r, wrap_text t w = some r ∧ r ≠ [] := by
  unfold wrap_text pyWrap
  rw [if_neg (by omega : ¬ w ≤ 0)]
  simp only [Option.map_some']
  by_cases hz : wrapAll w.toNat (splitWs (expandTabs t)) = []
  · exact ⟨[[]], by rw [if_pos hz], by simp⟩
  · exact ⟨_, by rw [if_neg hz], hz⟩

/-- C2 (amended): for a line matched by the numbered-item rule, the emitted
prefix is the matched leading whitespace followed by the digits, the dot and
one space — the leading whitespace IS part of the prefix, contrary to the
claim; the body is wrapped at `94 − len(prefix)` and the continuation segments
are padded with exactly `len(prefix)` spaces. For an unindented item such as
`"12. some text"` the padding width is `len("12. ") = 4`. -/
theorem c2_numbered_item (raw ws ds b : Str) (acc : List Str)
    (h : numberedMatch (pyRstrip raw) = some (ws, ds, b))
    (hw : ws.length + ds.length + 2 < 94) :
    ∃ c cs,
      wrap_text (pyStrip b)
        ((MAX_CHARS_PER_LINE : Int) - ((ws ++ ds ++ ['.', ' ']).length : Int)) = some (c :: cs) ∧
      processLine (false, acc) raw = some (false,
        acc ++ (ws ++ ds ++ ['.', ' '] ++ c) ::
          cs.map (fun k => List.replicate (ws ++ ds ++ ['.', ' ']).length ' ' ++ k)) ∧
      (ws ++ ds ++ ['.', ' ']).length = ws.length + ds.length + 2 := by
  obtain ⟨hws, hds, hdsne, r3, hr3, hb, c0, cs0, hr3c, hc0⟩ := numberedMatch_some h
  have hlen : (ws ++ ds ++ ['.', ' ']).length = ws.length + ds.length + 2 := by
    simp [List.length_append]
    omega
  have hwpos : (0 : Int) < (MAX_CHARS_PER_LINE : Int) - ((ws ++ ds ++ ['.', ' ']).length : Int) := by
    rw [hlen]
    unfold MAX_CHARS_PER_LINE
    push_cast
    omega
  obtain ⟨r, hr, hrne⟩ := wrap_text_pos (pyStrip b) _ hwpos
  rcases r with - | ⟨c, cs⟩
  · exact absurd rfl hrne
  refine ⟨c, cs, hr, ?_, hlen⟩
  have hr1 : (pyRstrip raw).dropWhile isPySpace = ds ++ ('.' :: r3) := by
    conv_lhs => rw [← List.takeWhile_append_dropWhile Char.isDigit
      ((pyRstrip raw).dropWhile isPySpace)]
    rw [← hds, hr3]
  obtain ⟨d, ds', hds'⟩ : ∃ d ds', ds = d :: ds' := by
    cases ds with
    | nil => exact absurd rfl hdsne
    | cons d ds' => exact ⟨d, ds', rfl⟩
  have hdd : d.isDigit = true := by
    have hmem : d ∈ ((pyRstrip raw).dropWhile isPySpace).takeWhile Char.isDigit := by
      rw [← hds, hds']
      exact List.mem_cons_self d ds'
    exact List.mem_takeWhile_imp hmem
  have hstr : pyStrip (pyRstrip raw) = (pyRstrip raw).dropWhile isPySpace := pyStrip_rstrip raw
  have htick : ("```").data = tick :: tick :: tick :: [] := by decide
  have hfence : ¬ ((pyStrip (pyRstrip raw)).take 3 = ("```").data) := by
    rw [hstr, hr1, hds', htick]
    intro hq
    rw [List.cons_append, List.take_succ_cons] at hq
    injection hq with h1 _
    exact absurd h1 (digit_ne_tick hdd)
  have hblank : ¬ (pyStrip (pyRstrip raw) = []) := by
    rw [hstr, hr1, hds']
    simp
  have hl2 : pyRstrip raw =
      (pyRstrip raw).takeWhile isPySpace ++ (pyRstrip raw).dropWhile isPySpace :=
    (List.takeWhile_append_dropWhile isPySpace (pyRstrip raw)).symm
  have hheading : headingMatch (pyRstrip raw) = none := by
    rcases hwsc : (pyRstrip raw).takeWhile isPySpace with - | ⟨w, ws''⟩
    · have hshape : pyRstrip raw = d :: (ds' ++ '.' :: r3) := by
        conv_lhs => rw [hl2, hwsc, hr1, hds']
        simp
      exact headingMatch_none_of_head hshape (digit_ne_hash hdd)
    · have hshape : pyRstrip raw = w :: (ws'' ++ (pyRstrip raw).dropWhile isPySpace) := by
        conv_lhs => rw [hl2, hwsc]
        simp
      have hwsp : isPySpace w = true := by
        have : w ∈ (pyRstrip raw).takeWhile isPySpace := by
          rw [hwsc]
          exact List.mem_cons_self w ws''
        exact List.mem_takeWhile_imp this
      exact headingMatch_none_of_head hshape (pySpace_ne_hash hwsp)
  have hbullet : bulletMatch (pyRstrip raw) = none := by
    have hshape : (pyRstrip raw).dropWhile isPySpace = d :: (ds' ++ '.' :: r3) := by
      rw [hr1, hds']
      simp
    exact bulletMatch_none hshape (digit_ne_dash hdd) (digit_ne_star hdd)
  unfold processLine
  simp only [hfence, hblank, hheading, hbullet, h, hr, if_false, Bool.false_eq_true,
    Option.map_some']

/-- C2 witness: the unindented item "12. some text" wraps with prefix "12. "
and continuation padding of width 4. -/
theorem c2_numbered_witness :
    ∃ c cs,
      wrap_text (pyStrip ("some text").data)
        ((MAX_CHARS_PER_LINE : Int) -
          ((([] : Str) ++ ("12").data ++ ['.', ' ']).length : Int)) = some (c :: cs) ∧
      processLine (false, []) (("12. some text").data) = some (false,
        [] ++ (([] : Str) ++ ("12").data ++ ['.', ' '] ++ c) ::
          cs.map (fun k =>
            List.replicate (([] : Str) ++ ("12").data ++ ['.', ' ']).length ' ' ++ k)) ∧
      (([] : Str) ++ ("12").data ++ ['.', ' ']).length =
        ([] : Str).length + ("12").data.length + 2 :=
  c2_numbered_item (("12. some text").data) [] (("12").data) (("some text").data) []
    (by decide) (by decide)

/-! ### C4: predicates and character-class lemmas -/

/-- the line carries no trailing whitespace (Python `str.strip` sense). -/
def noTrailPySpace (l : Str) : Bool :=
  match l.getLast? with
  | some c => ! isPySpace c
  | none => true

/-- every whitespace character of the string is one of the six ASCII
whitespace characters that `textwrap` splits on. -/
def cleanStr (l : Str) : Prop := ∀ c ∈ l, isPySpace c = true → isWrapSpace c = true

/-- invariant of the chunk stack inside `_wrap_chunks`: chunks are nonempty and
homogeneous for the split class, adjacent chunks alternate class, and all
characters are covered by `cleanStr`. -/
def goodChunks (l : List Str) : Prop :=
  (∀ c ∈ l, c ≠ [] ∧ cleanStr c ∧ ∀ x ∈ c, isWrapSpace x = c.all isWrapSpace) ∧
  List.Chain' (fun a b => a.all isWrapSpace ≠ b.all isWrapSpace) l

/-- some chunk is not pure whitespace (`strip` sense). -/
def hasWord (l : List Str) : Prop := ∃ c ∈ l, wsOnly c = false

theorem wrapSpace_pySpace {c : Char} (h : isWrapSpace c = true) : isPySpace c = true := by
  unfold isWrapSpace at h
  unfold isPySpace
  simp only [Bool.or_eq_true, Bool.and_eq_true, decide_eq_true_eq] at h ⊢
  omega

theorem isPySpace_false_of {c : Char} (h1 : 33 ≤ c.toNat) (h2 : c.toNat ≤ 132) :
    isPySpace c = false := by
  unfold isPySpace
  simp only [Bool.or_eq_false_iff, Bool.and_eq_false_iff, decide_eq_false_iff_not]
  omega

theorem isWrapSpace_false_of {c : Char} (h1 : 33 ≤ c.toNat) (h2 : c.toNat ≤ 132) :
    isWrapSpace c = false := by
  unfold isWrapSpace
  simp only [Bool.or_eq_false_iff, Bool.and_eq_false_iff, decide_eq_false_iff_not]
  omega

theorem ofNat_toNat_sub32 {n : Nat} (h1 : 97 ≤ n) (h2 : n ≤ 122) :
    (Char.ofNat (n - 32)).toNat = n - 32 := by
  interval_cases n <;> decide

theorem toUpper_eq (c : Char) :
    Char.toUpper c = if 97 ≤ c.toNat ∧ c.toNat ≤ 122 then Char.ofNat (c.toNat - 32) else c := by
  rfl

theorem toUpper_pySpace (c : Char) : isPySpace (Char.toUpper c) = isPySpace c := by
  rw [toUpper_eq]
  by_cases hl : 97 ≤ c.toNat ∧ c.toNat ≤ 122
  · rw [if_pos hl]
    have hup := ofNat_toNat_sub32 hl.1 hl.2
    rw [isPySpace_false_of (c := Char.ofNat (c.toNat - 32)) (by omega) (by omega),
      isPySpace_false_of (by omega) (by omega)]
  · rw [if_neg hl]

theorem toUpper_wrapSpace (c : Char) : isWrapSpace (Char.toUpper c) = isWrapSpace c := by
  rw [toUpper_eq]
  by_cases hl : 97 ≤ c.toNat ∧ c.toNat ≤ 122
  · rw [if_pos hl]
    have hup := ofNat_toNat_sub32 hl.1 hl.2
    rw [isWrapSpace_false_of (c := Char.ofNat (c.toNat - 32)) (by omega) (by omega),
      isWrapSpace_false_of (by omega) (by omega)]
  · rw [if_neg hl]

theorem cleanStr_of_mem {l m : Str} (h : cleanStr l) (hm : ∀ x ∈ m, x ∈ l) : cleanStr m :=
  fun c hc => h c (hm c hc)

theorem mem_pyRstrip {l : Str} {c : Char} (h : c ∈ pyRstrip l) : c ∈ l := by
  unfold pyRstrip at h
  rw [List.mem_reverse] at h
  have := (List.dropWhile_sublist (l := l.reverse) isPySpace).mem h
  rwa [List.mem_reverse] at this

theorem mem_pyLstrip {l : Str} {c : Char} (h : c ∈ pyLstrip l) : c ∈ l :=
  (List.dropWhile_sublist isPySpace).mem h

theorem mem_pyStrip {l : Str} {c : Char} (h : c ∈ pyStrip l) : c ∈ l :=
  mem_pyRstrip (mem_pyLstrip h)

theorem cleanStr_pyUpper {l : Str} (h : cleanStr l) : cleanStr (pyUpper l) := by
  intro c hc hpy
  unfold pyUpper at hc
  obtain ⟨d, hd, rfl⟩ := List.mem_map.mp hc
  rw [toUpper_pySpace] at hpy
  rw [toUpper_wrapSpace]
  exact h d hd hpy

theorem mem_expandTabsAux {l : Str} :
    ∀ {col : Nat} {c : Char}, c ∈ expandTabsAux col l → c ∈ l ∨ c = ' ' := by
  induction l with
  | nil => intro col c h; simp [expandTabsAux] at h
  | cons a as ih =>
    intro col c h
    rw [expandTabsAux] at h
    by_cases ha : a = '\t'
    · rw [if_pos ha] at h
      rcases List.mem_append.mp h with h | h
      · exact Or.inr (List.eq_of_mem_replicate h)
      · rcases ih h with h | h
        · exact Or.inl (List.mem_cons_of_mem a h)
        · exact Or.inr h
    · rw [if_neg ha] at h
      by_cases hnl : a = '\n' || a = '\r'
      · rw [if_pos hnl] at h
        rcases List.mem_cons.mp h with h | h
        · exact Or.inl (h ▸ List.mem_cons_self a as)
        · rcases ih h with h | h
          · exact Or.inl (List.mem_cons_of_mem a h)
          · exact Or.inr h
      · rw [if_neg hnl] at h
        rcases List.mem_cons.mp h with h | h
        · exact Or.inl (h ▸ List.mem_cons_self a as)
        · rcases ih h with h | h
          · exact Or.inl (List.mem_cons_of_mem a h)
          · exact Or.inr h

theorem cleanStr_expandTabs {l : Str} (h : cleanStr l) : cleanStr (expandTabs l) := by
  intro c hc hpy
  rcases mem_expandTabsAux hc with hm | hsp
  · exact h c hm hpy
  · subst hsp
    decide

theorem hasNonPy_expandTabsAux {l : Str} (h : ∃ x ∈ l, isPySpace x = false) :
    ∀ col, ∃ x ∈ expandTabsAux col l, isPySpace x = false := by
  induction l with
  | nil => simp at h
  | cons a as ih =>
    intro col
    obtain ⟨x, hx, hpx⟩ := h
    rw [expandTabsAux]
    by_cases ha : a = '\t'
    · rw [if_pos ha]
      have hxas : x ∈ as := by
        rcases List.mem_cons.mp hx with h | h
        · rw [h, ha] at hpx
          exact absurd hpx (by decide)
        · exact h
      obtain ⟨y, hy, hpy⟩ := ih ⟨x, hxas, hpx⟩ (col + (8 - col % 8))
      exact ⟨y, List.mem_append_right _ hy, hpy⟩
    · rw [if_neg ha]
      by_cases hnl : a = '\n' || a = '\r'
      · rw [if_pos hnl]
        have hxas : x ∈ as := by
          rcases List.mem_cons.mp hx with h | h
          · subst h
            rcases Bool.or_eq_true_iff.mp hnl with h | h <;>
              · simp only [decide_eq_true_eq] at h
                rw [h] at hpx
                exact absurd hpx (by decide)
          · exact h
        obtain ⟨y, hy, hpy⟩ := ih ⟨x, hxas, hpx⟩ 0
        exact ⟨y, List.mem_cons_of_mem a hy, hpy⟩
      · rw [if_neg hnl]
        rcases List.mem_cons.mp hx with h | h
        · exact ⟨a, List.mem_cons_self a _, h ▸ hpx⟩
        · obtain ⟨y, hy, hpy⟩ := ih ⟨x, h, hpx⟩ (col + 1)
          exact ⟨y, List.mem_cons_of_mem a hy, hpy⟩

/-! ### C4: splitWs structure -/

theorem all_eq_of_forall {m : Str} {b : Bool} (hne : m ≠ [])
    (h : ∀ x ∈ m, isWrapSpace x = b) : m.all isWrapSpace = b := by
  cases m with
  | nil => exact absurd rfl hne
  | cons c t =>
    cases b with
    | true =>
      simp only [List.all_eq_true]
      intro x hx
      exact h x hx
    | false =>
      simp only [List.all_cons, Bool.and_eq_false_iff]
      exact Or.inl (h c (List.mem_cons_self c t))

theorem splitWs_cons (a : Char) (as : Str) :
    splitWs (a :: as) = splitWsStep a (splitWs as) := rfl

theorem splitWsStep_nil (a : Char) : splitWsStep a [] = [[a]] := rfl

theorem splitWsStep_cons (a d : Char) (run' : Str) (rest : List Str) :
    splitWsStep a ((d :: run') :: rest) =
      if isWrapSpace a = isWrapSpace d then (a :: d :: run') :: rest
      else [a] :: (d :: run') :: rest := rfl

theorem splitWs_flatten (l : Str) : (splitWs l).flatten = l := by
  induction l with
  | nil => rfl
  | cons a as ih =>
    rw [splitWs_cons]
    rcases hs : splitWs as with - | ⟨run, rest⟩
    · rw [hs] at ih
      simp only [List.flatten_nil] at ih
      rw [splitWsStep_nil]
      simp [← ih]
    · rw [hs] at ih
      rcases run with - | ⟨d, run'⟩
      · rw [show splitWsStep a ([] :: rest) = [a] :: rest from rfl]
        simp only [List.flatten_cons] at ih ⊢
        simp only [List.nil_append] at ih
        simp [ih]
      · rw [splitWsStep_cons]
        by_cases hcd : isWrapSpace a = isWrapSpace d
        · rw [if_pos hcd]
          simp only [List.flatten_cons] at ih ⊢
          simp [ih]
        · rw [if_neg hcd]
          simp only [List.flatten_cons] at ih ⊢
          simp [ih]

theorem splitWs_good (l : Str) :
    (∀ c ∈ splitWs l, c ≠ [] ∧ ∀ x ∈ c, isWrapSpace x = c.all isWrapSpace) ∧
    List.Chain' (fun a b => a.all isWrapSpace ≠ b.all isWrapSpace) (splitWs l) := by
  induction l with
  | nil => exact ⟨fun c hc => absurd hc (by simp [splitWs]), by simp [splitWs]⟩
  | cons a as ih =>
    rw [splitWs_cons]
    rcases hs : splitWs as with - | ⟨run, rest⟩
    · rw [splitWsStep_nil]
      refine ⟨?_, by simp⟩
      intro c hc
      simp only [List.mem_singleton] at hc
      subst hc
      exact ⟨by simp, by simp⟩
    · rw [hs] at ih
      obtain ⟨ihm, ihc⟩ := ih
      have hrun := ihm run (List.mem_cons_self run rest)
      rcases hrune : run with - | ⟨d, run'⟩
      · exact absurd rfl (hrune ▸ hrun.1)
      · subst hrune
        rw [splitWsStep_cons]
        have hdb : isWrapSpace d = (d :: run').all isWrapSpace :=
          hrun.2 d (List.mem_cons_self d run')
        by_cases hcd : isWrapSpace a = isWrapSpace d
        · rw [if_pos hcd]
          have hclass : (a :: d :: run').all isWrapSpace = (d :: run').all isWrapSpace := by
            rw [List.all_cons (l := d :: run'), hcd, hdb]
            cases (d :: run').all isWrapSpace <;> simp
          refine ⟨?_, ?_⟩
          · intro c hc
            rcases List.mem_cons.mp hc with hc | hc
            · subst hc
              refine ⟨by simp, ?_⟩
              intro x hx
              rw [hclass]
              rcases List.mem_cons.mp hx with hx | hx
              · rw [hx, hcd, hdb]
              · exact hrun.2 x hx
            · exact ihm c (List.mem_cons_of_mem _ hc)
          · rw [List.chain'_cons'] at ihc ⊢
            refine ⟨?_, ihc.2⟩
            intro y hy
            rw [hclass]
            exact ihc.1 y hy
        · rw [if_neg hcd]
          refine ⟨?_, ?_⟩
          · intro c hc
            rcases List.mem_cons.mp hc with hc | hc
            · subst hc
              exact ⟨by simp, by simp⟩
            · exact ihm c hc
          · rw [List.chain'_cons]
            refine ⟨?_, ihc⟩
            simp only [List.all_cons, List.all_nil, Bool.and_true]
            have hdb2 : isWrapSpace d = (isWrapSpace d && run'.all isWrapSpace) := by
              rw [← List.all_cons]
              exact hdb
            intro hq
            exact hcd (hq.trans hdb2.symm)

theorem goodChunks_splitWs {l : Str} (hclean : cleanStr l) : goodChunks (splitWs l) := by
  obtain ⟨hm, hc⟩ := splitWs_good l
  refine ⟨?_, hc⟩
  intro c hcm
  refine ⟨(hm c hcm).1, ?_, (hm c hcm).2⟩
  intro x hx
  apply hclean
  rw [← splitWs_flatten l]
  exact List.mem_flatten.mpr ⟨c, hcm, hx⟩

theorem hasWord_splitWs {l : Str} (h : ∃ x ∈ l, isPySpace x = false) :
    hasWord (splitWs l) := by
  obtain ⟨x, hx, hpx⟩ := h
  rw [← splitWs_flatten l] at hx
  obtain ⟨c, hc, hxc⟩ := List.mem_flatten.mp hx
  refine ⟨c, hc, ?_⟩
  unfold wsOnly
  rw [List.all_eq_false]
  exact ⟨x, hxc, by simp [hpx]⟩

/-! ### C4: greedy loop and stack utilities -/

theorem sumLen_append (a b : List Str) : sumLen (a ++ b) = sumLen a + sumLen b := by
  unfold sumLen
  simp

theorem sumLen_cons (c : Str) (t : List Str) : sumLen (c :: t) = c.length + sumLen t := by
  unfold sumLen
  simp

theorem sumLen_dropLast_le (l : List Str) : sumLen l.dropLast ≤ sumLen l := by
  rcases List.eq_nil_or_concat l with rfl | ⟨init, last, rfl⟩
  · simp
  · rw [List.concat_eq_append, List.dropLast_concat, sumLen_append]
    omega

theorem takeGreedy_append (width : Nat) :
    ∀ (cs : List Str) (curLen : Nat),
      (takeGreedy width curLen cs).1 ++ (takeGreedy width curLen cs).2 = cs := by
  intro cs
  induction cs with
  | nil => intro curLen; simp [takeGreedy]
  | cons c t ih =>
    intro curLen
    rw [takeGreedy]
    by_cases h : curLen + c.length ≤ width
    · simp only [h, if_pos]
      simp [ih]
    · simp [h]

theorem takeGreedy_sum (width : Nat) :
    ∀ (cs : List Str) (curLen : Nat), curLen ≤ width →
      curLen + sumLen (takeGreedy width curLen cs).1 ≤ width := by
  intro cs
  induction cs with
  | nil => intro curLen h; simp [takeGreedy, sumLen]; omega
  | cons c t ih =>
    intro curLen h
    rw [takeGreedy]
    by_cases hc : curLen + c.length ≤ width
    · simp only [hc, if_pos]
      have := ih (curLen + c.length) hc
      rw [sumLen_cons]
      omega
    · simp only [hc, if_neg, Bool.false_eq_true]
      simp [sumLen]
      omega

theorem takeGreedy_cons_ne {width curLen : Nat} {c : Str} {cs : List Str}
    (h : curLen + c.length ≤ width) : (takeGreedy width curLen (c :: cs)).1 ≠ [] := by
  rw [takeGreedy]
  simp [h]

theorem dropLead_cons (hl : Bool) (c : Str) (cs : List Str) :
    dropLead hl (c :: cs) = if (hl && wsOnly c) = true then cs else c :: cs := rfl

theorem dropLead_cases (hl : Bool) (chunks : List Str) :
    dropLead hl chunks = chunks ∨
    (∃ c cs, chunks = c :: cs ∧ wsOnly c = true ∧ dropLead hl chunks = cs) := by
  cases chunks with
  | nil => exact Or.inl rfl
  | cons c cs =>
    rw [dropLead_cons]
    by_cases h : (hl && wsOnly c) = true
    · have h2 : wsOnly c = true := by
        revert h
        cases hl <;> cases hwc : wsOnly c <;> simp
    
      exact Or.inr ⟨c, cs, rfl, h2, by rw [if_pos h]⟩
    · exact Or.inl (by rw [if_neg h])

theorem getLast?_eq_none_iff {α : Type} {l : List α} : l.getLast? = none ↔ l = [] := by
  cases l with
  | nil => simp
  | cons a t => simp [List.getLast?_cons]

theorem dropTrailChunk_cases (tk : List Str) :
    (dropTrailChunk tk = tk ∧ (tk = [] ∨ ∃ Y, tk.getLast? = some Y ∧ wsOnly Y = false)) ∨
    (∃ Y, tk.getLast? = some Y ∧ wsOnly Y = true ∧ dropTrailChunk tk = tk.dropLast) := by
  rcases h : tk.getLast? with - | Y
  · refine Or.inl ⟨?_, Or.inl (getLast?_eq_none_iff.mp h)⟩
    unfold dropTrailChunk
    rw [h]
  · by_cases hw : wsOnly Y = true
    · refine Or.inr ⟨Y, rfl, hw, ?_⟩
      unfold dropTrailChunk
      rw [h]
      simp only []
      rw [if_pos hw]
    · refine Or.inl ⟨?_, Or.inr ⟨Y, rfl, Bool.eq_false_iff.mpr hw⟩⟩
      unfold dropTrailChunk
      rw [h]
      simp only []
      rw [if_neg hw]

theorem flatten_ne_nil {l : List Str} (h : l ≠ []) (hall : ∀ x ∈ l, x ≠ []) :
    l.flatten ≠ [] := by
  cases l with
  | nil => exact absurd rfl h
  | cons a t =>
    rw [List.flatten_cons]
    intro hq
    exact hall a (List.mem_cons_self a t) (List.append_eq_nil.mp hq).1

theorem flatten_getLast :
    ∀ {l : List Str} {x : Str}, l.getLast? = some x → x ≠ [] →
      l.flatten.getLast? = x.getLast? := by
  intro l
  induction l with
  | nil => intro x h hx; simp at h
  | cons a t ih =>
    intro x h hx
    cases t with
    | nil =>
      simp only [List.getLast?_singleton] at h
      injection h with h
      subst h
      simp
    | cons b u =>
      rw [List.getLast?_cons_cons] at h
      have hrec := ih h hx
      have hxs : x.getLast?.isSome := by
        rw [List.getLast?_isSome]
        exact hx
      have hne : (b :: u).flatten ≠ [] := by
        intro hq
        rw [hq] at hrec
        simp only [List.getLast?_nil] at hrec
        rw [← hrec] at hxs
        simp at hxs
      rw [List.flatten_cons, List.getLast?_append_of_ne_nil _ hne]
      exact hrec

theorem chain'_getLast_dropLast {R : Str → Str → Prop} :
    ∀ {l : List Str} {x y : Str}, List.Chain' R l → l.dropLast.getLast? = some x →
      l.getLast? = some y → R x y := by
  intro l
  induction l with
  | nil => intro x y _ h1 _; simp at h1
  | cons a t ih =>
    intro x y hc h1 h2
    cases t with
    | nil => simp at h1
    | cons b u =>
      rw [List.getLast?_cons_cons] at h2
      cases u with
      | nil =>
        rw [List.dropLast_cons₂] at h1
        simp only [List.dropLast_single, List.getLast?_singleton] at h1 h2
        injection h1 with h1
        injection h2 with h2
        subst h1
        subst h2
        exact (List.chain'_cons.mp hc).1
      | cons e f =>
        rw [List.dropLast_cons₂, List.dropLast_cons₂, List.getLast?_cons_cons,
          ← List.dropLast_cons₂] at h1
        exact ih hc.tail h1 h2

/-! ### C4: wrapOnce lemmas -/

theorem longAdjust_nil (width : Nat) (t : List Str) : longAdjust width (t, []) = (t, []) := rfl

theorem longAdjust_cons (width : Nat) (t : List Str) (c : Str) (cs : List Str) :
    longAdjust width (t, c :: cs) =
      if width < c.length
      then (t ++ [c.take (width - sumLen t)], c.drop (width - sumLen t) :: cs)
      else (t, c :: cs) := rfl

theorem wrapOnce_fst (width : Nat) (hl : Bool) (chunks : List Str) :
    (wrapOnce width hl chunks).1 =
      (if dropTrailChunk (longAdjust width (takeGreedy width 0 (dropLead hl chunks))).1 = []
       then none
       else some
        (dropTrailChunk (longAdjust width (takeGreedy width 0 (dropLead hl chunks))).1).flatten) :=
  rfl

theorem wrapOnce_snd (width : Nat) (hl : Bool) (chunks : List Str) :
    (wrapOnce width hl chunks).2 =
      (longAdjust width (takeGreedy width 0 (dropLead hl chunks))).2 := rfl

theorem msr_suffix_le (t r : List Str) : msr r ≤ msr (t ++ r) := by
  unfold msr
  rw [sumLen_append, List.length_append]
  omega

theorem longAdjust_msr_le (width : Nat) (t r : List Str) :
    msr (longAdjust width (t, r)).2 ≤ msr r := by
  rcases r with - | ⟨c, cs⟩
  · rw [longAdjust_nil]
  · rw [longAdjust_cons]
    by_cases hlong : width < c.length
    · rw [if_pos hlong]
      simp only []
      unfold msr
      rw [sumLen_cons, sumLen_cons]
      have := List.length_drop (width - sumLen t) c
      simp only [List.length_cons]
      omega
    · rw [if_neg hlong]

theorem wrapOnce_len {width : Nat} {hl : Bool} {chunks : List Str} {line : Str}
    {rest : List Str} (h : wrapOnce width hl chunks = (some line, rest)) :
    line.length ≤ width := by
  have h1 := congrArg Prod.fst h
  rw [wrapOnce_fst] at h1
  rcases htg : takeGreedy width 0 (dropLead hl chunks) with ⟨t, r⟩
  rw [htg] at h1
  have hsum : sumLen t ≤ width := by
    have h2 := takeGreedy_sum width (dropLead hl chunks) 0 (Nat.zero_le width)
    rw [htg] at h2
    simpa using h2
  have hbound : sumLen (longAdjust width (t, r)).1 ≤ width := by
    rcases r with - | ⟨c, cs⟩
    · rw [longAdjust_nil]
      exact hsum
    · rw [longAdjust_cons]
      by_cases hlong : width < c.length
      · rw [if_pos hlong]
        simp only []
        rw [sumLen_append]
        have h3 : (c.take (width - sumLen t)).length ≤ width - sumLen t := by
          rw [List.length_take]
          exact Nat.min_le_left _ _
        have h4 : sumLen [c.take (width - sumLen t)] = (c.take (width - sumLen t)).length := by
          simp [sumLen]
        omega
      · rw [if_neg hlong]
        exact hsum
  have htk : sumLen (dropTrailChunk (longAdjust width (t, r)).1) ≤ width := by
    rcases dropTrailChunk_cases (longAdjust width (t, r)).1 with ⟨he, -⟩ | ⟨Y, -, -, he⟩
    · rw [he]
      exact hbound
    · rw [he]
      exact le_trans (sumLen_dropLast_le _) hbound
  by_cases hz : dropTrailChunk (longAdjust width (t, r)).1 = []
  · rw [if_pos hz] at h1
    simp at h1
  · rw [if_neg hz] at h1
    have h5 : line = (dropTrailChunk (longAdjust width (t, r)).1).flatten :=
      (Option.some_inj.mp h1).symm
    rw [h5]
    have h6 : (dropTrailChunk (longAdjust width (t, r)).1).flatten.length
        = sumLen (dropTrailChunk (longAdjust width (t, r)).1) := by
      unfold sumLen
      rw [List.length_flatten]
    omega

theorem wrapOnce_measure {width : Nat} {hl : Bool} {chunks : List Str}
    (hw : 1 ≤ width) (hne : chunks ≠ []) :
    msr (wrapOnce width hl chunks).2 < msr chunks := by
  rw [wrapOnce_snd]
  rcases htg : takeGreedy width 0 (dropLead hl chunks) with ⟨t, r⟩
  have hTA : t ++ r = dropLead hl chunks := by
    have h2 := takeGreedy_append width (dropLead hl chunks) 0
    rw [htg] at h2
    exact h2
  rcases dropLead_cases hl chunks with hA | ⟨c0, cs0, hch, hws0, hA⟩
  · by_cases ht : t = []
    · subst ht
      rw [List.nil_append] at hTA
      rcases hchunks : chunks with - | ⟨c, cs⟩
      · exact absurd hchunks hne
      have hr : r = c :: cs := by rw [hTA, hA, hchunks]
      subst hr
      have hcl : width < c.length := by
        by_contra hcon
        push_neg at hcon
        have h3 := @takeGreedy_cons_ne width 0 c cs (by omega)
        rw [hA, hchunks] at htg
        rw [htg] at h3
        exact h3 rfl
      rw [longAdjust_cons, if_pos hcl]
      simp only []
      unfold msr
      rw [sumLen_cons, sumLen_cons]
      have h5 : sumLen ([] : List Str) = 0 := rfl
      rw [h5]
      have h4 := List.length_drop (width - 0) c
      simp only [List.length_cons]
      omega
    · have hm : msr r + 1 ≤ msr (t ++ r) := by
        unfold msr
        rw [sumLen_append, List.length_append]
        have h6 : 1 ≤ t.length := List.length_pos.mpr ht
        omega
      calc msr (longAdjust width (t, r)).2 ≤ msr r := longAdjust_msr_le width t r
        _ < msr (t ++ r) := by omega
        _ = msr chunks := by rw [hTA, hA]
  · have hm0 : msr (dropLead hl chunks) < msr chunks := by
      rw [hA, hch]
      unfold msr
      rw [sumLen_cons]
      simp only [List.length_cons]
      omega
    calc msr (longAdjust width (t, r)).2 ≤ msr r := longAdjust_msr_le width t r
      _ ≤ msr (t ++ r) := msr_suffix_le t r
      _ = msr (dropLead hl chunks) := by rw [hTA]
      _ < msr chunks := hm0

theorem good_dropLead {hl : Bool} {chunks : List Str} (h : goodChunks chunks) :
    goodChunks (dropLead hl chunks) := by
  rcases dropLead_cases hl chunks with he | ⟨c, cs, hch, -, he⟩
  · rw [he]
    exact h
  · rw [he]
    subst hch
    exact ⟨fun d hd => h.1 d (List.mem_cons_of_mem c hd), h.2.tail⟩

theorem good_suffix {t r : List Str} (h : goodChunks (t ++ r)) : goodChunks r :=
  ⟨fun c hc => h.1 c (List.mem_append_right t hc), (List.chain'_append.mp h.2).2.1⟩

theorem chunk_class_of_forall {c : Str}
    (h : ∀ x ∈ c, isWrapSpace x = c.all isWrapSpace) {m : Str} (hmne : m ≠ [])
    (hm : ∀ x ∈ m, x ∈ c) : m.all isWrapSpace = c.all isWrapSpace :=
  all_eq_of_forall hmne (fun x hx => h x (hm x hx))

theorem chunk_nonws_all {c : Str} (hcl : cleanStr c)
    (hhom : ∀ x ∈ c, isWrapSpace x = c.all isWrapSpace) (hw : wsOnly c = false) :
    ∀ x ∈ c, isPySpace x = false := by
  have hb : c.all isWrapSpace = false := by
    by_contra hcon
    have hall : c.all isWrapSpace = true := by
      cases hq : c.all isWrapSpace
      · exact absurd hq hcon
      · rfl
    have hws : wsOnly c = true := by
      unfold wsOnly
      rw [List.all_eq_true] at hall ⊢
      intro x hx
      exact wrapSpace_pySpace (hall x hx)
    rw [hws] at hw
    cases hw
  intro x hx
  have hwx : isWrapSpace x = false := (hhom x hx).trans hb
  by_contra hcon
  have hpx : isPySpace x = true := by
    cases hq : isPySpace x
    · exact absurd hq hcon
    · rfl
  rw [hcl x hx hpx] at hwx
  cases hwx

theorem chunk_ws_class {c : Str} (hcl : cleanStr c) (hw : wsOnly c = true) :
    c.all isWrapSpace = true := by
  unfold wsOnly at hw
  rw [List.all_eq_true] at hw ⊢
  intro x hx
  exact hcl x hx (hw x hx)

theorem wrapOnce_rest_good {width : Nat} {hl : Bool} {chunks : List Str}
    (hok : goodChunks chunks) : goodChunks (wrapOnce width hl chunks).2 := by
  rw [wrapOnce_snd]
  have hokA : goodChunks (dropLead hl chunks) := good_dropLead hok
  rcases htg : takeGreedy width 0 (dropLead hl chunks) with ⟨t, r⟩
  have hTA : t ++ r = dropLead hl chunks := by
    have h2 := takeGreedy_append width (dropLead hl chunks) 0
    rw [htg] at h2
    exact h2
  have hokR : goodChunks r := good_suffix (hTA ▸ hokA)
  rcases r with - | ⟨c, cs⟩
  · rw [longAdjust_nil]
    exact hokR
  · rw [longAdjust_cons]
    by_cases hlong : width < c.length
    · rw [if_pos hlong]
      simp only []
      obtain ⟨hcne, hccl, hchom⟩ := hokR.1 c (List.mem_cons_self c cs)
      have hdne : c.drop (width - sumLen t) ≠ [] := by
        intro hq
        have h3 := List.length_drop (width - sumLen t) c
        rw [hq] at h3
        simp at h3
        have h4 : width - sumLen t ≤ width := Nat.sub_le width (sumLen t)
        omega
      have hdsub : ∀ x ∈ c.drop (width - sumLen t), x ∈ c :=
        fun x hx => (List.drop_sublist _ c).mem hx
      have hdclass : (c.drop (width - sumLen t)).all isWrapSpace = c.all isWrapSpace :=
        chunk_class_of_forall hchom hdne hdsub
      refine ⟨?_, ?_⟩
      · intro d hd
        rcases List.mem_cons.mp hd with hd | hd
        · subst hd
          refine ⟨hdne, cleanStr_of_mem hccl hdsub, ?_⟩
          intro x hx
          rw [hdclass]
          exact hchom x (hdsub x hx)
        · exact hokR.1 d (List.mem_cons_of_mem c hd)
      · have hch := hokR.2
        rw [List.chain'_cons'] at hch ⊢
        refine ⟨?_, hch.2⟩
        intro y hy
        rw [hdclass]
        exact hch.1 y hy
    · rw [if_neg hlong]
      exact hokR

theorem noTrail_of_last_chunk {tk : List Str} {X : Str}
    (hlast : tk.getLast? = some X) (hXne : X ≠ [])
    (hX : ∀ x ∈ X, isPySpace x = false) : noTrailPySpace tk.flatten = true := by
  unfold noTrailPySpace
  rw [flatten_getLast hlast hXne]
  rcases hXl : X.getLast? with - | xc
  · exact absurd (getLast?_eq_none_iff.mp hXl) hXne
  · simp only []
    rw [hX xc (getLast?_mem hXl)]
    rfl

theorem chunk_class_false_nonpy {X : Str} (hXcl : cleanStr X)
    (hXhom : ∀ x ∈ X, isWrapSpace x = X.all isWrapSpace)
    (hXclass : X.all isWrapSpace = false) : ∀ x ∈ X, isPySpace x = false := by
  intro x hx
  have hwx : isWrapSpace x = false := (hXhom x hx).trans hXclass
  by_contra hcon
  have hpx : isPySpace x = true := by
    cases hq : isPySpace x
    · exact absurd hq hcon
    · rfl
  rw [hXcl x hx hpx] at hwx
  cases hwx

theorem line_from_t {t : List Str}
    (hokT : ∀ d ∈ t, d ≠ [] ∧ cleanStr d ∧ ∀ x ∈ d, isWrapSpace x = d.all isWrapSpace)
    (hchainT : List.Chain' (fun a b => a.all isWrapSpace ≠ b.all isWrapSpace) t)
    (hz : dropTrailChunk t ≠ []) :
    (dropTrailChunk t).flatten ≠ [] ∧ noTrailPySpace (dropTrailChunk t).flatten = true := by
  rcases dropTrailChunk_cases t with ⟨he, hca⟩ | ⟨Y, hY, hYws, he⟩
  · rw [he] at hz ⊢
    rcases hca with rfl | ⟨Y, hY, hYws⟩
    · exact absurd rfl hz
    · obtain ⟨hYne, hYcl, hYhom⟩ := hokT Y (getLast?_mem hY)
      have hYclass : Y.all isWrapSpace = false := by
        cases hq : Y.all isWrapSpace
        · rfl
        · have := chunk_ws_class hYcl
          have hws2 : wsOnly Y = true := by
            unfold wsOnly
            rw [List.all_eq_true]
            intro x hx
            exact wrapSpace_pySpace ((hYhom x hx).trans hq)
          rw [hws2] at hYws
          cases hYws
      refine ⟨flatten_ne_nil hz (fun x hx => (hokT x hx).1), ?_⟩
      exact noTrail_of_last_chunk hY hYne (chunk_class_false_nonpy hYcl hYhom hYclass)
  · rw [he] at hz ⊢
    rcases hX : t.dropLast.getLast? with - | X
    · exact absurd (getLast?_eq_none_iff.mp hX) hz
    · have hR : X.all isWrapSpace ≠ Y.all isWrapSpace := chain'_getLast_dropLast hchainT hX hY
      obtain ⟨-, hYcl, -⟩ := hokT Y (getLast?_mem hY)
      have hYclass : Y.all isWrapSpace = true := chunk_ws_class hYcl hYws
      have hXt : X ∈ t := (List.dropLast_sublist t).mem (getLast?_mem hX)
      obtain ⟨hXne, hXcl, hXhom⟩ := hokT X hXt
      have hXclass : X.all isWrapSpace = false := by
        cases hq : X.all isWrapSpace
        · rfl
        · rw [hq, hYclass] at hR
          exact absurd rfl hR
      refine ⟨flatten_ne_nil hz
        (fun x hx => (hokT x ((List.dropLast_sublist t).mem hx)).1), ?_⟩
      exact noTrail_of_last_chunk hX hXne (chunk_class_false_nonpy hXcl hXhom hXclass)

theorem wrapOnce_line {width : Nat} {hl : Bool} {chunks : List Str} {line : Str}
    {rest : List Str} (hok : goodChunks chunks)
    (h : wrapOnce width hl chunks = (some line, rest)) :
    line ≠ [] ∧ (line.length < width → noTrailPySpace line = true) := by
  have hokA : goodChunks (dropLead hl chunks) := good_dropLead hok
  have h1 := congrArg Prod.fst h
  rw [wrapOnce_fst] at h1
  rcases htg : takeGreedy width 0 (dropLead hl chunks) with ⟨t, r⟩
  rw [htg] at h1
  have hTA : t ++ r = dropLead hl chunks := by
    have h2 := takeGreedy_append width (dropLead hl chunks) 0
    rw [htg] at h2
    exact h2
  have hsum : sumLen t ≤ width := by
    have h2 := takeGreedy_sum width (dropLead hl chunks) 0 (Nat.zero_le width)
    rw [htg] at h2
    simpa using h2
  have hokT : ∀ d ∈ t, d ≠ [] ∧ cleanStr d ∧ ∀ x ∈ d, isWrapSpace x = d.all isWrapSpace :=
    fun d hd => hokA.1 d (by rw [← hTA]; exact List.mem_append_left r hd)
  have hchainA : List.Chain' (fun a b => a.all isWrapSpace ≠ b.all isWrapSpace) (t ++ r) := by
    rw [hTA]
    exact hokA.2
  have hchainT := (List.chain'_append.mp hchainA).1
  have hlink := (List.chain'_append.mp hchainA).2.2
  by_cases hz : dropTrailChunk (longAdjust width (t, r)).1 = []
  · rw [if_pos hz] at h1
    simp at h1
  · rw [if_neg hz] at h1
    have hline : line = (dropTrailChunk (longAdjust width (t, r)).1).flatten :=
      (Option.some_inj.mp h1).symm
    rcases r with - | ⟨c, cs⟩
    · rw [longAdjust_nil] at hz hline
      obtain ⟨hn, ht⟩ := line_from_t hokT hchainT hz
      rw [hline]
      exact ⟨hn, fun _ => ht⟩
    · rw [longAdjust_cons] at hz hline
      by_cases hlong : width < c.length
      · rw [if_pos hlong] at hz hline
        simp only [] at hz hline
        obtain ⟨hcne, hccl, hchom⟩ := hokA.1 c
          (by rw [← hTA]; exact List.mem_append_right t (List.mem_cons_self c cs))
        have hsub : ∀ x ∈ c.take (width - sumLen t), x ∈ c :=
          fun x hx => (List.take_sublist _ c).mem hx
        have hlastc : (t ++ [c.take (width - sumLen t)]).getLast? =
            some (c.take (width - sumLen t)) := by
          rw [List.getLast?_concat]
        rcases dropTrailChunk_cases (t ++ [c.take (width - sumLen t)]) with
          ⟨he, hca⟩ | ⟨Y, hY, hYws, he⟩
        · rw [he] at hz hline
          rcases hca with hq | ⟨Y, hY, hYws⟩
          · exact absurd hq (by simp)
          · rw [hlastc] at hY
            injection hY with hY
            subst hY
            have hpne : c.take (width - sumLen t) ≠ [] := by
              intro hq
              rw [hq] at hYws
              simp [wsOnly] at hYws
            have hpclass : (c.take (width - sumLen t)).all isWrapSpace = c.all isWrapSpace :=
              chunk_class_of_forall hchom hpne hsub
            have hphom : ∀ x ∈ c.take (width - sumLen t),
                isWrapSpace x = (c.take (width - sumLen t)).all isWrapSpace := by
              intro x hx
              rw [hpclass]
              exact hchom x (hsub x hx)
            have hpcl : cleanStr (c.take (width - sumLen t)) := cleanStr_of_mem hccl hsub
            have hpall := chunk_nonws_all hpcl hphom hYws
            have hallne : ∀ x ∈ t ++ [c.take (width - sumLen t)], x ≠ [] := by
              intro x hx
              rcases List.mem_append.mp hx with hx | hx
              · exact (hokT x hx).1
              · rw [List.mem_singleton] at hx
                subst hx
                exact hpne
            rw [hline]
            refine ⟨flatten_ne_nil hz hallne, fun _ => ?_⟩
            exact noTrail_of_last_chunk hlastc hpne hpall
        · rw [hlastc] at hY
          injection hY with hY
          subst hY
          rw [List.dropLast_concat] at he
          rw [he] at hz hline
          by_cases hpart : c.take (width - sumLen t) = []
          · have hslz : width - sumLen t = 0 ∨ c.length = 0 := by
              have h3 := List.length_take (width - sumLen t) c
              rw [hpart] at h3
              simp at h3
              omega
            have hcpos : 0 < c.length := by omega
            have hsw : sumLen t = width := by omega
            have hlen : line.length = width := by
              rw [hline]
              have h4 : (t.flatten).length = sumLen t := by
                unfold sumLen
                rw [List.length_flatten]
              omega
            refine ⟨?_, fun hlt => absurd hlt (by omega)⟩
            rw [hline]
            exact flatten_ne_nil hz (fun x hx => (hokT x hx).1)
          · have hpcl : cleanStr (c.take (width - sumLen t)) := cleanStr_of_mem hccl hsub
            have hpclass := chunk_ws_class hpcl hYws
            have hcclass : c.all isWrapSpace = true := by
              rw [← chunk_class_of_forall hchom hpart hsub]
              exact hpclass
            rcases hXg : t.getLast? with - | X
            · exact absurd (getLast?_eq_none_iff.mp hXg) hz
            · have hRXc : X.all isWrapSpace ≠ c.all isWrapSpace := by
                apply hlink X
                · rw [hXg]
                  rfl
                · rfl
              have hXt : X ∈ t := getLast?_mem hXg
              obtain ⟨hXne, hXcl, hXhom⟩ := hokT X hXt
              have hXclass : X.all isWrapSpace = false := by
                cases hq : X.all isWrapSpace
                · rfl
                · rw [hq, hcclass] at hRXc
                  exact absurd rfl hRXc
              rw [hline]
              refine ⟨flatten_ne_nil hz (fun x hx => (hokT x hx).1), fun _ => ?_⟩
              exact noTrail_of_last_chunk hXg hXne
                (chunk_class_false_nonpy hXcl hXhom hXclass)
      · rw [if_neg hlong] at hz hline
        obtain ⟨hn, ht⟩ := line_from_t hokT hchainT hz
        rw [hline]
        exact ⟨hn, fun _ => ht⟩

theorem eq_singleton_of_dropLast_nil {l : List Str} {Y : Str} (h1 : l.dropLast = [])
    (h2 : l.getLast? = some Y) : l = [Y] := by
  cases l with
  | nil => simp at h2
  | cons a t =>
    cases t with
    | nil =>
      simp only [List.getLast?_singleton] at h2
      injection h2 with h2
      rw [h2]
    | cons b u =>
      rw [List.dropLast_cons₂] at h1
      simp at h1

theorem wsOnly_all_py {c : Str} (h : wsOnly c = true) : ∀ x ∈ c, isPySpace x = true := by
  unfold wsOnly at h
  rw [List.all_eq_true] at h
  exact h

theorem wrapOnce_none {width : Nat} {hl : Bool} {chunks : List Str} {rest : List Str}
    (h : wrapOnce width hl chunks = (none, rest)) (hword : hasWord chunks) :
    hasWord rest := by
  have h1 := congrArg Prod.fst h
  have h2 := congrArg Prod.snd h
  rw [wrapOnce_fst] at h1
  rw [wrapOnce_snd] at h2
  rcases htg : takeGreedy width 0 (dropLead hl chunks) with ⟨t, r⟩
  rw [htg] at h1 h2
  simp only [] at h2
  have hTA : t ++ r = dropLead hl chunks := by
    have h3 := takeGreedy_append width (dropLead hl chunks) 0
    rw [htg] at h3
    exact h3
  have htk : dropTrailChunk (longAdjust width (t, r)).1 = [] := by
    by_cases hz : dropTrailChunk (longAdjust width (t, r)).1 = []
    · exact hz
    · rw [if_neg hz] at h1
      simp at h1
  have hwordA : hasWord (dropLead hl chunks) := by
    rcases dropLead_cases hl chunks with he | ⟨c0, cs0, hch, hws0, he⟩
    · rw [he]
      exact hword
    · rw [he]
      obtain ⟨w, hw1, hw2⟩ := hword
      rw [hch] at hw1
      rcases List.mem_cons.mp hw1 with hq | hq
      · subst hq
        rw [hws0] at hw2
        cases hw2
      · exact ⟨w, hq, hw2⟩
  rw [← hTA] at hwordA
  rcases r with - | ⟨c, cs⟩
  · rw [longAdjust_nil] at htk h2
    exfalso
    rcases dropTrailChunk_cases t with ⟨he', -⟩ | ⟨Y, hY, hYws, he'⟩
    · rw [he'] at htk
      subst htk
      obtain ⟨w, hw1, -⟩ := hwordA
      simp at hw1
    · rw [he'] at htk
      have ht1 : t = [Y] := eq_singleton_of_dropLast_nil htk hY
      obtain ⟨w, hw1, hw2⟩ := hwordA
      rw [ht1] at hw1
      simp at hw1
      subst hw1
      rw [hYws] at hw2
      cases hw2
  · rw [longAdjust_cons] at htk h2
    by_cases hlong : width < c.length
    · rw [if_pos hlong] at htk h2
      simp only [] at htk h2
      rw [← h2]
      rcases dropTrailChunk_cases (t ++ [c.take (width - sumLen t)]) with
        ⟨he', -⟩ | ⟨Y, hY, hYws, he'⟩
      · rw [he'] at htk
        exact absurd htk (by simp)
      · rw [he', List.dropLast_concat] at htk
        rw [List.getLast?_concat] at hY
        injection hY with hY
        subst htk
        obtain ⟨w, hw1, hw2⟩ := hwordA
        rw [List.nil_append] at hw1
        rcases List.mem_cons.mp hw1 with hq | hq
        · rw [hq] at hw2
          obtain ⟨x, hx, hpx⟩ := List.all_eq_false.mp hw2
          have hx2 : x ∈ c.take (width - sumLen ([] : List Str)) ++
              c.drop (width - sumLen ([] : List Str)) := by
            rw [List.take_append_drop]
            exact hx
          rcases List.mem_append.mp hx2 with hq2 | hq2
          · rw [hY] at hq2
            have := wsOnly_all_py hYws x hq2
            simp [this] at hpx
          · refine ⟨c.drop (width - sumLen ([] : List Str)),
              List.mem_cons_self _ _, ?_⟩
            unfold wsOnly
            rw [List.all_eq_false]
            exact ⟨x, hq2, hpx⟩
        · exact ⟨w, List.mem_cons_of_mem _ hq, hw2⟩
    · rw [if_neg hlong] at htk h2
      rw [← h2]
      rcases dropTrailChunk_cases t with ⟨he', -⟩ | ⟨Y, hY, hYws, he'⟩
      · rw [he'] at htk
        subst htk
        rw [List.nil_append] at hTA
        rw [← hTA] at htg
        have h4 := @takeGreedy_cons_ne width 0 c cs (by omega)
        rw [htg] at h4
        exact absurd rfl h4
      · rw [he'] at htk
        have ht1 : t = [Y] := eq_singleton_of_dropLast_nil htk hY
        obtain ⟨w, hw1, hw2⟩ := hwordA
        rw [ht1] at hw1
        rcases List.mem_append.mp hw1 with hq | hq
        · simp at hq
          subst hq
          rw [hYws] at hw2
          cases hw2
        · exact ⟨w, hq, hw2⟩

/-! ### C4: fuelled loop and wrap_text soundness -/

theorem wrapFuel_succ_nil (width f : Nat) (hl : Bool) : wrapFuel width (f + 1) hl [] = [] := rfl

theorem wrapFuel_succ_cons (width f : Nat) (hl : Bool) (c : Str) (cs : List Str) :
    wrapFuel width (f + 1) hl (c :: cs) =
      (match (wrapOnce width hl (c :: cs)).1 with
       | some line => line :: wrapFuel width f true (wrapOnce width hl (c :: cs)).2
       | none => wrapFuel width f hl (wrapOnce width hl (c :: cs)).2) := rfl

theorem wrapFuel_len (width : Nat) :
    ∀ (fuel : Nat) (hl : Bool) (chunks : List Str),
      ∀ l ∈ wrapFuel width fuel hl chunks, l.length ≤ width := by
  intro fuel
  induction fuel with
  | zero => intro hl chunks l hy; simp [wrapFuel] at hy
  | succ f ih =>
    intro hl chunks l hy
    rcases chunks with - | ⟨c, cs⟩
    · simp [wrapFuel_succ_nil] at hy
    · rw [wrapFuel_succ_cons] at hy
      rcases hw : wrapOnce width hl (c :: cs) with ⟨ol, rest⟩
      rw [hw] at hy
      rcases ol with - | line
      · simp only [] at hy
        exact ih hl rest l hy
      · simp only [] at hy
        rcases List.mem_cons.mp hy with hq | hq
        · subst hq
          exact wrapOnce_len hw
        · exact ih true rest l hq

theorem wrapFuel_sound (width : Nat) :
    ∀ (fuel : Nat) (hl : Bool) (chunks : List Str), goodChunks chunks →
      ∀ l ∈ wrapFuel width fuel hl chunks,
        l ≠ [] ∧ (l.length < width → noTrailPySpace l = true) := by
  intro fuel
  induction fuel with
  | zero => intro hl chunks _ l hy; simp [wrapFuel] at hy
  | succ f ih =>
    intro hl chunks hok l hy
    rcases chunks with - | ⟨c, cs⟩
    · simp [wrapFuel_succ_nil] at hy
    · rw [wrapFuel_succ_cons] at hy
      rcases hw : wrapOnce width hl (c :: cs) with ⟨ol, rest⟩
      have hgood : goodChunks rest := by
        have h5 := @wrapOnce_rest_good width hl (c :: cs) hok
        rw [hw] at h5
        exact h5
      rw [hw] at hy
      rcases ol with - | line
      · simp only [] at hy
        exact ih hl rest hgood l hy
      · simp only [] at hy
        rcases List.mem_cons.mp hy with hq | hq
        · subst hq
          exact wrapOnce_line hok hw
        · exact ih true rest hgood l hq

theorem wrapFuel_ne_nil (width : Nat) (hwd : 1 ≤ width) :
    ∀ (fuel : Nat) (hl : Bool) (chunks : List Str), hasWord chunks → msr chunks < fuel →
      wrapFuel width fuel hl chunks ≠ [] := by
  intro fuel
  induction fuel with
  | zero => intro hl chunks _ hm; omega
  | succ f ih =>
    intro hl chunks hword hm
    rcases chunks with - | ⟨c, cs⟩
    · obtain ⟨w, hw1, -⟩ := hword
      simp at hw1
    · rw [wrapFuel_succ_cons]
      rcases hw : wrapOnce width hl (c :: cs) with ⟨ol, rest⟩
      have hmr : msr rest < msr (c :: cs) := by
        have h5 := @wrapOnce_measure width hl (c :: cs) hwd (List.cons_ne_nil c cs)
        rw [hw] at h5
        exact h5
      rcases ol with - | line
      · simp only []
        exact ih hl rest (wrapOnce_none hw hword) (by omega)
      · simp

theorem wrap_text_some_pos {t : Str} {w : Int} {ls : List Str}
    (h : wrap_text t w = some ls) : 0 < w := by
  unfold wrap_text pyWrap at h
  by_cases hz : w ≤ 0
  · rw [if_pos hz] at h
    simp at h
  · omega

theorem wrap_text_eq {t : Str} {w : Int} {ls : List Str} (h : wrap_text t w = some ls) :
    ls = (if wrapAll w.toNat (splitWs (expandTabs t)) = [] then [[]]
          else wrapAll w.toNat (splitWs (expandTabs t))) := by
  have hpos := wrap_text_some_pos h
  unfold wrap_text pyWrap at h
  rw [if_neg (by omega)] at h
  simp only [Option.map_some'] at h
  exact (Option.some_inj.mp h).symm

theorem wrap_text_len {t : Str} {w : Int} {ls : List Str} (h : wrap_text t w = some ls) :
    ∀ l ∈ ls, l.length ≤ w.toNat := by
  intro l hl
  rw [wrap_text_eq h] at hl
  by_cases hn : wrapAll w.toNat (splitWs (expandTabs t)) = []
  · rw [if_pos hn] at hl
    simp at hl
    simp [hl]
  · rw [if_neg hn] at hl
    unfold wrapAll at hl
    exact wrapFuel_len w.toNat _ false _ l hl

theorem wrap_text_trail {t : Str} {w : Int} {ls : List Str} (h : wrap_text t w = some ls)
    (hclean : cleanStr t) :
    ∀ l ∈ ls, l.length < w.toNat → noTrailPySpace l = true := by
  intro l hl
  rw [wrap_text_eq h] at hl
  by_cases hn : wrapAll w.toNat (splitWs (expandTabs t)) = []
  · rw [if_pos hn] at hl
    simp at hl
    intro _
    simp [hl, noTrailPySpace]
  · rw [if_neg hn] at hl
    unfold wrapAll at hl
    have hok : goodChunks (splitWs (expandTabs t)) :=
      goodChunks_splitWs (cleanStr_expandTabs hclean)
    exact (wrapFuel_sound w.toNat _ false _ hok l hl).2

theorem wrap_text_words {t : Str} {w : Int} {ls : List Str} (h : wrap_text t w = some ls)
    (hclean : cleanStr t) (hword : ∃ x ∈ t, isPySpace x = false) :
    ∀ l ∈ ls, l ≠ [] := by
  have hpos := wrap_text_some_pos h
  have hword2 : hasWord (splitWs (expandTabs t)) := by
    apply hasWord_splitWs
    exact hasNonPy_expandTabsAux hword 0
  have hne : wrapAll w.toNat (splitWs (expandTabs t)) ≠ [] := by
    unfold wrapAll
    exact wrapFuel_ne_nil w.toNat (by omega) _ false _ hword2 (by omega)
  intro l hl
  rw [wrap_text_eq h, if_neg hne] at hl
  unfold wrapAll at hl
  have hok : goodChunks (splitWs (expandTabs t)) :=
    goodChunks_splitWs (cleanStr_expandTabs hclean)
  exact (wrapFuel_sound w.toNat _ false _ hok l hl).1

/-! ### C4: line bodies are clean word suffixes -/

theorem lineOk_nil_aux : ([] : Str).length ≤ 94 ∧ noTrailPySpace ([] : Str) = true :=
  ⟨by simp, rfl⟩

theorem noTrail_append {p k : Str} (hk : k ≠ []) (h : noTrailPySpace k = true) :
    noTrailPySpace (p ++ k) = true := by
  unfold noTrailPySpace at h ⊢
  rw [List.getLast?_append_of_ne_nil p hk]
  exact h

theorem suffix_word {l s : Str} {c : Char} (hlast : l.getLast? = some c)
    (hs : ∃ p, l = p ++ s) (hsne : s ≠ []) : s.getLast? = some c := by
  obtain ⟨p, rfl⟩ := hs
  rw [List.getLast?_append_of_ne_nil p hsne] at hlast
  exact hlast

theorem dropWhile_ne_nil_of_last {s : Str} {c : Char} (hlast : s.getLast? = some c)
    (hnp : isPySpace c = false) : s.dropWhile isPySpace ≠ [] := by
  intro hq
  have hall : s.takeWhile isPySpace = s := by
    have h2 := List.takeWhile_append_dropWhile isPySpace s
    rw [hq] at h2
    simpa using h2
  have hcb : c ∈ s := getLast?_mem hlast
  rw [← hall] at hcb
  rw [List.mem_takeWhile_imp hcb] at hnp
  cases hnp

theorem pyRstrip_last {l : Str} {c : Char} (h : (pyRstrip l).getLast? = some c) :
    isPySpace c = false := by
  unfold pyRstrip at h
  rw [List.getLast?_reverse] at h
  rcases hd : l.reverse.dropWhile isPySpace with - | ⟨c', t⟩
  · rw [hd] at h
    simp at h
  · rw [hd] at h
    simp only [List.head?_cons] at h
    injection h with h
    subst h
    exact dropWhile_head_false hd

theorem pyRstrip_word {raw : Str} (hne : pyRstrip raw ≠ []) :
    ∃ c, (pyRstrip raw).getLast? = some c ∧ isPySpace c = false := by
  rcases hg : (pyRstrip raw).getLast? with - | c
  · exact absurd (getLast?_eq_none_iff.mp hg) hne
  · exact ⟨c, rfl, pyRstrip_last (l := raw) (by rw [hg])⟩

theorem suffix_dropWhile_word {l r : Str} {c : Char}
    (hcl : l.getLast? = some c) (hcnp : isPySpace c = false)
    (hsuf : ∃ p, l = p ++ r) (hrne : r ≠ []) :
    r.dropWhile isPySpace ≠ [] ∧ (r.dropWhile isPySpace).getLast? = some c := by
  have hrl : r.getLast? = some c := suffix_word hcl hsuf hrne
  have hdne : r.dropWhile isPySpace ≠ [] := dropWhile_ne_nil_of_last hrl hcnp
  have hsuf2 : ∃ p, r = p ++ r.dropWhile isPySpace :=
    ⟨_, (List.takeWhile_append_dropWhile _ _).symm⟩
  exact ⟨hdne, suffix_word hrl hsuf2 hdne⟩

theorem pyStrip_last_word {b : Str} {c : Char} (hlast : b.getLast? = some c)
    (hnp : isPySpace c = false) :
    pyStrip b ≠ [] ∧ ∃ x ∈ pyStrip b, isPySpace x = false := by
  have hrs : pyRstrip b = b := by
    unfold pyRstrip
    rcases hr : b.reverse with - | ⟨c', t⟩
    · have hb : b = [] := by
        rw [← List.reverse_reverse b, hr]
        rfl
      rw [hb] at hlast
      simp at hlast
    · have hc' : c' = c := by
        have h2 := hlast
        rw [← List.head?_reverse, hr] at h2
        simpa using h2
      have hnp' : isPySpace c' = false := by
        rw [hc']
        exact hnp
      rw [List.dropWhile_cons, hnp']
      simp only [Bool.false_eq_true, if_false]
      rw [← hr, List.reverse_reverse]
  unfold pyStrip pyLstrip
  rw [hrs]
  obtain ⟨hdne, hdl⟩ := suffix_dropWhile_word hlast hnp ⟨[], rfl⟩ (by
    intro hq
    rw [hq] at hlast
    simp at hlast)
  exact ⟨hdne, c, getLast?_mem hdl, hnp⟩

theorem bulletMatch_some {l b : Str} (h : bulletMatch l = some b) :
    ∃ d r, l.dropWhile isPySpace = d :: r ∧ r ≠ [] ∧ b = r.dropWhile isPySpace := by
  unfold bulletMatch at h
  generalize hd : l.dropWhile isPySpace = s at h ⊢
  rcases s with - | ⟨d, r⟩
  · simp at h
  · simp only [] at h
    by_cases hdc : (d = '-' || d = '*') = true
    · rw [if_pos hdc] at h
      rcases r with - | ⟨e, r'⟩
      · simp at h
      · simp only [] at h
        by_cases he : isPySpace e = true
        · rw [if_pos he] at h
          injection h with h
          exact ⟨d, e :: r', rfl, by simp, h.symm⟩
        · rw [if_neg (by simpa using he)] at h
          simp at h
    · rw [if_neg hdc] at h
      simp at h

theorem headingMatch_some_mem {l t : Str} (h : headingMatch l = some t) :
    ∀ x ∈ t, x ∈ l := by
  unfold headingMatch at h
  by_cases hh : (1 ≤ (l.takeWhile (fun c => c = '#')).length &&
      (l.takeWhile (fun c => c = '#')).length ≤ 6) = true
  · rw [if_pos hh] at h
    rcases hr : l.dropWhile (fun c => c = '#') with - | ⟨c, r⟩
    · rw [hr] at h
      simp at h
    · rw [hr] at h
      simp only [] at h
      by_cases hc : isPySpace c = true
      · rw [if_pos hc] at h
        injection h with h
        intro x hx
        rw [← h] at hx
        have hx2 : x ∈ l.dropWhile (fun c => c = '#') := by
          rw [hr]
          exact (List.dropWhile_sublist isPySpace).mem hx
        exact (List.dropWhile_sublist (fun c => c = '#')).mem hx2
      · rw [if_neg (by simpa using hc)] at h
        simp at h
  · rw [if_neg hh] at h
    simp at h

/-! ### C4: preservation through the line loop -/

theorem forall_mem_append_of {P : Str → Prop} {a x : List Str}
    (ha : ∀ l ∈ a, P l) (hx : ∀ l ∈ x, P l) : ∀ l ∈ a ++ x, P l := by
  intro l hl
  rcases List.mem_append.mp hl with h1 | h2
  · exact ha l h1
  · exact hx l h2


theorem processLine_len {b b' : Bool} {acc acc' : List Str} {raw : Str}
    (h : processLine (b, acc) raw = some (b', acc'))
    (hacc : ∀ l ∈ acc, l.length ≤ 94) : ∀ l ∈ acc', l.length ≤ 94 := by
  have h94 : ((MAX_CHARS_PER_LINE : Nat) : Int).toNat = 94 := by decide
  have h90 : (((MAX_CHARS_PER_LINE : Nat) : Int) - 4).toNat = 90 := by decide
  have h92 : (((MAX_CHARS_PER_LINE : Nat) : Int) - 2).toNat = 92 := by decide
  unfold processLine at h
  simp only [] at h
  split at h
  · -- fence
    injection h with h
    have h2 : acc ++ [[]] = acc' := congrArg Prod.snd h
    rw [← h2]
    refine forall_mem_append_of hacc ?_
    intro l hl
    simp only [List.mem_singleton] at hl
    subst hl
    simp
  · split at h
    · -- code
      rcases hwt : wrap_text (if pyRstrip raw = [] then [] else pyRstrip raw)
          ((MAX_CHARS_PER_LINE : Int) - 4) with - | cw
      · rw [hwt] at h
        simp at h
      · rw [hwt] at h
        simp only [Option.map_some'] at h
        injection h with h
        have h2 : _ = acc' := congrArg Prod.snd h
        rw [← h2]
        refine forall_mem_append_of hacc ?_
        intro l hl
        obtain ⟨w, hw, rfl⟩ := List.mem_map.mp hl
        by_cases hwe : w = []
        · rw [if_pos hwe]
          simp
        · rw [if_neg hwe]
          have hlen := wrap_text_len hwt w hw
          rw [h90] at hlen
          simp only [List.length_cons]
          omega
    · split at h
      · -- blank
        injection h with h
        have h2 : acc ++ [[]] = acc' := congrArg Prod.snd h
        rw [← h2]
        refine forall_mem_append_of hacc ?_
        intro l hl
        simp only [List.mem_singleton] at hl
        subst hl
        simp
      · -- match headingMatch
        split at h
        · -- heading: some t
          rename_i t hh
          rcases hwt : wrap_text (pyUpper (pyStrip t)) (MAX_CHARS_PER_LINE : Int)
            with - | cw
          · rw [hwt] at h
            simp at h
          · rw [hwt] at h
            simp only [Option.map_some'] at h
            injection h with h
            have hcw : ∀ l ∈ cw ++ [[]], l.length ≤ 94 := by
              refine forall_mem_append_of ?_ ?_
              · intro l hl
                have hlen := wrap_text_len hwt l hl
                rwa [h94] at hlen
              · intro l hl
                simp only [List.mem_singleton] at hl
                subst hl
                simp
            have h2 : _ = acc' := congrArg Prod.snd h
            simp only [] at h2
            rw [← h2]
            split
            · rw [List.append_assoc, List.append_assoc]
              exact forall_mem_append_of hacc (forall_mem_append_of
                (by
                  intro l hl
                  simp only [List.mem_singleton] at hl
                  subst hl
                  simp) hcw)
            · rw [List.append_assoc]
              exact forall_mem_append_of hacc hcw
        · -- match bulletMatch
          split at h
          · -- bullet: some bb
            rename_i bb hbm
            rcases hwt : wrap_text (pyStrip bb) ((MAX_CHARS_PER_LINE : Int) - 2)
              with - | cw
            · rw [hwt] at h
              simp at h
            · rw [hwt] at h
              simp only [Option.map_some'] at h
              injection h with h
              have h2 : _ = acc' := congrArg Prod.snd h
              rw [← h2]
              refine forall_mem_append_of hacc ?_
              rcases cw with - | ⟨c1, cs1⟩
              · intro l hl
                simp at hl
              · intro l hl
                simp only [] at hl
                rcases List.mem_cons.mp hl with h1 | h1
                · subst h1
                  have hlen := wrap_text_len hwt c1 (List.mem_cons_self c1 cs1)
                  rw [h92] at hlen
                  simp only [List.length_cons]
                  omega
                · obtain ⟨k, hk, rfl⟩ := List.mem_map.mp h1
                  have hlen := wrap_text_len hwt k (List.mem_cons_of_mem c1 hk)
                  rw [h92] at hlen
                  simp only [List.length_cons]
                  omega
          · -- match numberedMatch
            split at h
            · -- numbered: some (ws1, ds1, bod)
              rename_i ws1 ds1 bod hnm
              rcases hwt : wrap_text (pyStrip bod)
                  ((MAX_CHARS_PER_LINE : Int) -
                    (((ws1 ++ ds1 ++ ['.', ' ']).length : Nat) : Int)) with - | cw
              · rw [hwt] at h
                simp at h
              · rw [hwt] at h
                simp only [Option.map_some'] at h
                injection h with h
                have h2 : _ = acc' := congrArg Prod.snd h
                rw [← h2]
                refine forall_mem_append_of hacc ?_
                have hpos := wrap_text_some_pos hwt
                have hplt : (ws1 ++ ds1 ++ ['.', ' ']).length < 94 := by
                  unfold MAX_CHARS_PER_LINE at hpos
                  omega
                have hwn : ((MAX_CHARS_PER_LINE : Int) -
                    (((ws1 ++ ds1 ++ ['.', ' ']).length : Nat) : Int)).toNat =
                    94 - (ws1 ++ ds1 ++ ['.', ' ']).length := by
                  unfold MAX_CHARS_PER_LINE
                  omega
                rcases cw with - | ⟨c1, cs1⟩
                · intro l hl
                  simp at hl
                · intro l hl
                  simp only [] at hl
                  rcases List.mem_cons.mp hl with h1 | h1
                  · subst h1
                    have hlen := wrap_text_len hwt c1 (List.mem_cons_self c1 cs1)
                    rw [hwn] at hlen
                    simp only [List.length_append, List.length_cons,
                      List.length_nil] at hlen hplt ⊢
                    omega
                  · obtain ⟨k, hk, rfl⟩ := List.mem_map.mp h1
                    have hlen := wrap_text_len hwt k (List.mem_cons_of_mem c1 hk)
                    rw [hwn] at hlen
                    simp only [List.length_append, List.length_cons, List.length_nil,
                      List.length_replicate] at hlen hplt ⊢
                    omega
            · -- other
              rcases hwt : wrap_text (pyStrip (pyRstrip raw)) (MAX_CHARS_PER_LINE : Int)
                with - | cw
              · rw [hwt] at h
                simp at h
              · rw [hwt] at h
                simp only [Option.map_some'] at h
                injection h with h
                have h2 : _ = acc' := congrArg Prod.snd h
                rw [← h2]
                refine forall_mem_append_of hacc ?_
                intro l hl
                have hlen := wrap_text_len hwt l hl
                rwa [h94] at hlen
theorem processLine_trail {b b' : Bool} {acc acc' : List Str} {raw : Str}
    (hclean : cleanStr raw)
    (h : processLine (b, acc) raw = some (b', acc'))
    (hacc : ∀ l ∈ acc, l.length < 94 → noTrailPySpace l = true) :
    ∀ l ∈ acc', l.length < 94 → noTrailPySpace l = true := by
  have h94 : ((MAX_CHARS_PER_LINE : Nat) : Int).toNat = 94 := by decide
  have h90 : (((MAX_CHARS_PER_LINE : Nat) : Int) - 4).toNat = 90 := by decide
  have h92 : (((MAX_CHARS_PER_LINE : Nat) : Int) - 2).toNat = 92 := by decide
  have hcl : cleanStr (pyRstrip raw) :=
    cleanStr_of_mem hclean (fun x hx => mem_pyRstrip hx)
  unfold processLine at h
  simp only [] at h
  split at h
  · -- fence
    injection h with h
    have h2 : acc ++ [[]] = acc' := congrArg Prod.snd h
    rw [← h2]
    refine forall_mem_append_of hacc ?_
    intro l hl
    simp only [List.mem_singleton] at hl
    subst hl
    intro _
    rfl
  · split at h
    · -- code
      rcases hwt : wrap_text (if pyRstrip raw = [] then [] else pyRstrip raw)
          ((MAX_CHARS_PER_LINE : Int) - 4) with - | cw
      · rw [hwt] at h
        simp at h
      · rw [hwt] at h
        simp only [Option.map_some'] at h
        injection h with h
        have h2 : _ = acc' := congrArg Prod.snd h
        rw [← h2]
        refine forall_mem_append_of hacc ?_
        have hcl2 : cleanStr (if pyRstrip raw = [] then [] else pyRstrip raw) := by
          split
          · intro c hc
            simp at hc
          · exact hcl
        intro l hl
        obtain ⟨w, hw, rfl⟩ := List.mem_map.mp hl
        by_cases hwe : w = []
        · rw [if_pos hwe]
          intro _
          rfl
        · rw [if_neg hwe]
          intro hlt
          simp only [List.length_cons] at hlt
          have htr := wrap_text_trail hwt hcl2 w hw (by rw [h90]; omega)
          show noTrailPySpace ([' ', ' ', ' ', ' '] ++ w) = true
          exact noTrail_append hwe htr
    · split at h
      · -- blank
        injection h with h
        have h2 : acc ++ [[]] = acc' := congrArg Prod.snd h
        rw [← h2]
        refine forall_mem_append_of hacc ?_
        intro l hl
        simp only [List.mem_singleton] at hl
        subst hl
        intro _
        rfl
      · split at h
        · -- heading: some t
          rename_i t hh
          rcases hwt : wrap_text (pyUpper (pyStrip t)) (MAX_CHARS_PER_LINE : Int)
            with - | cw
          · rw [hwt] at h
            simp at h
          · rw [hwt] at h
            simp only [Option.map_some'] at h
            injection h with h
            have hct : cleanStr (pyUpper (pyStrip t)) :=
              cleanStr_pyUpper (cleanStr_of_mem
                (cleanStr_of_mem hcl (headingMatch_some_mem hh))
                (fun x hx => mem_pyStrip hx))
            have hcw : ∀ l ∈ cw ++ [[]], l.length < 94 → noTrailPySpace l = true := by
              refine forall_mem_append_of ?_ ?_
              · intro l hl hlt
                exact wrap_text_trail hwt hct l hl (by rw [h94]; omega)
              · intro l hl
                simp only [List.mem_singleton] at hl
                subst hl
                intro _
                rfl
            have h2 : _ = acc' := congrArg Prod.snd h
            simp only [] at h2
            rw [← h2]
            split
            · rw [List.append_assoc, List.append_assoc]
              exact forall_mem_append_of hacc (forall_mem_append_of
                (by
                  intro l hl
                  simp only [List.mem_singleton] at hl
                  subst hl
                  intro _
                  rfl) hcw)
            · rw [List.append_assoc]
              exact forall_mem_append_of hacc hcw
        · split at h
          · -- bullet: some bb
            rename_i bb hbm
            rcases hwt : wrap_text (pyStrip bb) ((MAX_CHARS_PER_LINE : Int) - 2)
              with - | cw
            · rw [hwt] at h
              simp at h
            · rw [hwt] at h
              simp only [Option.map_some'] at h
              injection h with h
              have h2 : _ = acc' := congrArg Prod.snd h
              rw [← h2]
              refine forall_mem_append_of hacc ?_
              obtain ⟨d, r, hd, hrne, hbb⟩ := bulletMatch_some hbm
              have hlne : pyRstrip raw ≠ [] := by
                intro hq
                rw [hq] at hd
                simp at hd
              obtain ⟨c, hclast, hcnp⟩ := pyRstrip_word hlne
              have hsuf : ∃ p, pyRstrip raw = p ++ r := by
                refine ⟨(pyRstrip raw).takeWhile isPySpace ++ [d], ?_⟩
                conv_lhs => rw [← List.takeWhile_append_dropWhile isPySpace (pyRstrip raw)]
                rw [hd]
                simp
              obtain ⟨hbbne, hbblast⟩ := suffix_dropWhile_word hclast hcnp hsuf hrne
              rw [← hbb] at hbbne hbblast
              obtain ⟨hsne, hword⟩ := pyStrip_last_word hbblast hcnp
              have hcb : cleanStr (pyStrip bb) := by
                refine cleanStr_of_mem hcl ?_
                intro x hx
                have hx1 : x ∈ bb := mem_pyStrip hx
                rw [hbb] at hx1
                have hx2 : x ∈ d :: r :=
                  List.mem_cons_of_mem d ((List.dropWhile_sublist isPySpace).mem hx1)
                rw [← hd] at hx2
                exact (List.dropWhile_sublist isPySpace).mem hx2
              have hwords := wrap_text_words hwt hcb hword
              rcases cw with - | ⟨c1, cs1⟩
              · intro l hl
                simp at hl
              · intro l hl
                simp only [] at hl
                rcases List.mem_cons.mp hl with h1 | h1
                · subst h1
                  intro hlt
                  simp only [List.length_cons] at hlt
                  have htr := wrap_text_trail hwt hcb c1 (List.mem_cons_self c1 cs1)
                    (by rw [h92]; omega)
                  show noTrailPySpace (['-', ' '] ++ c1) = true
                  exact noTrail_append (hwords c1 (List.mem_cons_self c1 cs1)) htr
                · obtain ⟨k, hk, rfl⟩ := List.mem_map.mp h1
                  intro hlt
                  simp only [List.length_cons] at hlt
                  have htr := wrap_text_trail hwt hcb k (List.mem_cons_of_mem c1 hk)
                    (by rw [h92]; omega)
                  show noTrailPySpace ([' ', ' '] ++ k) = true
                  exact noTrail_append (hwords k (List.mem_cons_of_mem c1 hk)) htr
          · split at h
            · -- numbered: some (ws1, ds1, bod)
              rename_i ws1 ds1 bod hnm
              rcases hwt : wrap_text (pyStrip bod)
                  ((MAX_CHARS_PER_LINE : Int) -
                    (((ws1 ++ ds1 ++ ['.', ' ']).length : Nat) : Int)) with - | cw
              · rw [hwt] at h
                simp at h
              · rw [hwt] at h
                simp only [Option.map_some'] at h
                injection h with h
                have h2 : _ = acc' := congrArg Prod.snd h
                rw [← h2]
                refine forall_mem_append_of hacc ?_
                have hpos := wrap_text_some_pos hwt
                have hplt : (ws1 ++ ds1 ++ ['.', ' ']).length < 94 := by
                  unfold MAX_CHARS_PER_LINE at hpos
                  omega
                have hwn : ((MAX_CHARS_PER_LINE : Int) -
                    (((ws1 ++ ds1 ++ ['.', ' ']).length : Nat) : Int)).toNat =
                    94 - (ws1 ++ ds1 ++ ['.', ' ']).length := by
                  unfold MAX_CHARS_PER_LINE
                  omega
                obtain ⟨hws1, hds1, hdsne, r3, hr3, hbod, c0, cs0, hr3c, hc0⟩ :=
                  numberedMatch_some hnm
                have hlne : pyRstrip raw ≠ [] := by
                  intro hq
                  rw [hq] at hr3
                  simp at hr3
                obtain ⟨c, hclast, hcnp⟩ := pyRstrip_word hlne
                have hr3ne : r3 ≠ [] := by
                  rw [hr3c]
                  simp
                have hsuf : ∃ p, pyRstrip raw = p ++ r3 := by
                  refine ⟨(pyRstrip raw).takeWhile isPySpace ++
                    ((pyRstrip raw).dropWhile isPySpace).takeWhile Char.isDigit ++ ['.'], ?_⟩
                  conv_lhs => rw [← List.takeWhile_append_dropWhile isPySpace (pyRstrip raw)]
                  conv_lhs => rw [← List.takeWhile_append_dropWhile Char.isDigit
                    ((pyRstrip raw).dropWhile isPySpace)]
                  rw [hr3]
                  simp
                obtain ⟨hbodne, hbodlast⟩ := suffix_dropWhile_word hclast hcnp hsuf hr3ne
                rw [← hbod] at hbodne hbodlast
                obtain ⟨hsne, hword⟩ := pyStrip_last_word hbodlast hcnp
                have hcb : cleanStr (pyStrip bod) := by
                  refine cleanStr_of_mem hcl ?_
                  intro x hx
                  have hx1 : x ∈ bod := mem_pyStrip hx
                  rw [hbod] at hx1
                  have hx2 : x ∈ '.' :: r3 := List.mem_cons_of_mem '.'
                    ((List.dropWhile_sublist isPySpace).mem hx1)
                  rw [← hr3] at hx2
                  have hx3 : x ∈ (pyRstrip raw).dropWhile isPySpace :=
                    (List.dropWhile_sublist Char.isDigit).mem hx2
                  exact (List.dropWhile_sublist isPySpace).mem hx3
                have hwords := wrap_text_words hwt hcb hword
                rcases cw with - | ⟨c1, cs1⟩
                · intro l hl
                  simp at hl
                · intro l hl
                  simp only [] at hl
                  rcases List.mem_cons.mp hl with h1 | h1
                  · subst h1
                    intro hlt
                    simp only [List.length_append, List.length_cons, List.length_nil] at hlt
                    have htr := wrap_text_trail hwt hcb c1 (List.mem_cons_self c1 cs1)
                      (by
                        rw [hwn]
                        simp only [List.length_append, List.length_cons,
                          List.length_nil] at hplt ⊢
                        omega)
                    exact noTrail_append (hwords c1 (List.mem_cons_self c1 cs1)) htr
                  · obtain ⟨k, hk, rfl⟩ := List.mem_map.mp h1
                    intro hlt
                    simp only [List.length_append, List.length_cons, List.length_nil,
                      List.length_replicate] at hlt
                    have htr := wrap_text_trail hwt hcb k (List.mem_cons_of_mem c1 hk)
                      (by
                        rw [hwn]
                        simp only [List.length_append, List.length_cons,
                          List.length_nil] at hplt ⊢
                        omega)
                    exact noTrail_append (hwords k (List.mem_cons_of_mem c1 hk)) htr
            · -- other
              rcases hwt : wrap_text (pyStrip (pyRstrip raw)) (MAX_CHARS_PER_LINE : Int)
                with - | cw
              · rw [hwt] at h
                simp at h
              · rw [hwt] at h
                simp only [Option.map_some'] at h
                injection h with h
                have h2 : _ = acc' := congrArg Prod.snd h
                rw [← h2]
                refine forall_mem_append_of hacc ?_
                have hcs : cleanStr (pyStrip (pyRstrip raw)) :=
                  cleanStr_of_mem hcl (fun x hx => mem_pyStrip hx)
                intro l hl hlt
                exact wrap_text_trail hwt hcs l hl (by rw [h94]; omega)

theorem pySplitlines_mem : ∀ (s : Str) (l : Str) (x : Char),
    l ∈ pySplitlines s → x ∈ l → x ∈ s := by
  intro s
  induction s with
  | nil =>
    intro l x hl hx
    simp [pySplitlines] at hl
  | cons c cs ih =>
    intro l x hl hx
    unfold pySplitlines at hl
    rw [List.foldr_cons] at hl
    generalize hst : cs.foldr splitlinesStep ([], false) = st at hl
    obtain ⟨st1, st2⟩ := st
    have ih2 : ∀ (l2 : Str), l2 ∈ st1 → ∀ x2 ∈ l2, x2 ∈ cs := by
      intro l2 hl2 x2 hx2
      refine ih l2 x2 ?_ hx2
      show l2 ∈ (cs.foldr splitlinesStep ([], false)).1
      rw [hst]
      exact hl2
    unfold splitlinesStep at hl
    by_cases hb : isLineBoundary c = true
    · rw [if_pos hb] at hl
      by_cases hb2 : (c = '\r' && st2) = true
      · rw [if_pos hb2] at hl
        simp only [] at hl
        exact List.mem_cons_of_mem c (ih2 l hl x hx)
      · rw [if_neg hb2] at hl
        simp only [] at hl
        rcases List.mem_cons.mp hl with h1 | h1
        · subst h1
          simp at hx
        · exact List.mem_cons_of_mem c (ih2 l h1 x hx)
    · rw [if_neg hb] at hl
      rcases st1 with - | ⟨l0, rest⟩
      · simp only [List.mem_singleton] at hl
        subst hl
        simp only [List.mem_singleton] at hx
        rw [hx]
        exact List.mem_cons_self c cs
      · simp only [] at hl
        rcases List.mem_cons.mp hl with h1 | h1
        · subst h1
          rcases List.mem_cons.mp hx with h2 | h2
          · rw [h2]
            exact List.mem_cons_self c cs
          · exact List.mem_cons_of_mem c (ih2 l0 (List.mem_cons_self l0 rest) x h2)
        · exact List.mem_cons_of_mem c (ih2 l (List.mem_cons_of_mem l0 h1) x hx)


theorem runLines_len {ls : List Str} : ∀ {b : Bool} {acc out : List Str},
    runLines b acc ls = some out →
    (∀ l ∈ acc, l.length ≤ 94) →
    ∀ l ∈ out, l.length ≤ 94 := by
  induction ls with
  | nil =>
    intro b acc out h hacc
    unfold runLines at h
    injection h with h
    rw [← h]
    exact hacc
  | cons l0 ls ih =>
    intro b acc out h hacc
    unfold runLines at h
    rcases hp : processLine (b, acc) l0 with - | ⟨c, acc1⟩
    · rw [hp] at h
      simp at h
    · rw [hp] at h
      simp only [] at h
      exact ih h (processLine_len hp hacc)

theorem runLines_trail {ls : List Str} : ∀ {b : Bool} {acc out : List Str},
    runLines b acc ls = some out →
    (∀ l0 ∈ ls, cleanStr l0) →
    (∀ l ∈ acc, l.length < 94 → noTrailPySpace l = true) →
    ∀ l ∈ out, l.length < 94 → noTrailPySpace l = true := by
  induction ls with
  | nil =>
    intro b acc out h _ hacc
    unfold runLines at h
    injection h with h
    rw [← h]
    exact hacc
  | cons l0 ls ih =>
    intro b acc out h hcl hacc
    unfold runLines at h
    rcases hp : processLine (b, acc) l0 with - | ⟨c, acc1⟩
    · rw [hp] at h
      simp at h
    · rw [hp] at h
      simp only [] at h
      refine ih h (fun l2 hl2 => hcl l2 (List.mem_cons_of_mem l0 hl2)) ?_
      exact processLine_trail (hcl l0 (List.mem_cons_self l0 ls)) hp hacc

theorem dropTrailBlank_mem {lines : List Str} {l : Str} (h : l ∈ dropTrailBlank lines) :
    l ∈ lines := by
  unfold dropTrailBlank at h
  rw [List.mem_reverse] at h
  have := (List.dropWhile_sublist (fun l => decide (l = []))).mem h
  rwa [List.mem_reverse] at this

/-- C4 (amended): every line produced by `markdown_to_lines` is at most
`MAX_CHARS_PER_LINE` (94) characters long; and when every whitespace character
of the input belongs to the six-character ASCII whitespace set that `textwrap`
splits on, a line strictly shorter than 94 characters never ends in whitespace
(a line that fills the width exactly can end in a space, see the
counterexample). -/
theorem c4_line_bounds (md : Str) (out : List Str) (h : markdown_to_lines md = some out) :
    (∀ l ∈ out, l.length ≤ 94) ∧
    (cleanStr md → ∀ l ∈ out, l.length < 94 → noTrailPySpace l = true) := by
  unfold markdown_to_lines at h
  rcases hr : runLines false [] (pySplitlines md) with - | res
  · rw [hr] at h
    simp at h
  · rw [hr] at h
    simp only [Option.map_some'] at h
    injection h with h
    constructor
    · intro l hl
      rw [← h] at hl
      exact runLines_len hr (by intro l2 hl2; simp at hl2) l (dropTrailBlank_mem hl)
    · intro hclean l hl hlt
      rw [← h] at hl
      refine runLines_trail hr ?_ (by intro l2 hl2; simp at hl2) l
        (dropTrailBlank_mem hl) hlt
      intro l0 hl0
      exact cleanStr_of_mem hclean (fun x hx => pySplitlines_mem md l0 x hl0 hx)

/-- C4 witness: on the document "hi" the produced lines satisfy both bounds. -/
theorem c4_line_bounds_witness :
    markdown_to_lines (("hi").data) = some [("hi").data] ∧
    ((∀ l ∈ [("hi").data], l.length ≤ 94) ∧
      (cleanStr (("hi").data) →
        ∀ l ∈ [("hi").data], l.length < 94 → noTrailPySpace l = true)) :=
  ⟨by decide, c4_line_bounds (("hi").data) [("hi").data] (by decide)⟩

set_option maxRecDepth 10000 in
/-- C4 counterexample: two failures of the unqualified no-trailing-whitespace
claim. First, a 93-character word, a space, and a 95-character word produce as
first output line the 94-character line "aaa…a " — filled exactly to the width
and ending in a space. Second, a no-break space (U+00A0, whitespace for
`str.strip` but not for `textwrap`) survives at the end of a 2-character
output line, so even lines shorter than the width can end in whitespace when
the input contains non-ASCII whitespace. -/
theorem c4_trailing_counterexample :
    (markdown_to_lines (List.replicate 93 'a' ++ [' '] ++ List.replicate 95 'b') =
      some [List.replicate 93 'a' ++ [' '], List.replicate 94 'b', ['b']] ∧
     noTrailPySpace (List.replicate 93 'a' ++ [' ']) = false) ∧
    (markdown_to_lines (['a', '\xa0', ' '] ++ List.replicate 94 'b') =
      some [['a', '\xa0'], List.replicate 94 'b'] ∧
     noTrailPySpace ['a', '\xa0'] = false ∧
     (['a', '\xa0'] : Str).length < 94) := by
  refine ⟨⟨?_, ?_⟩, ?_, ?_, ?_⟩
  · decide
  · decide
  · decide
  · decide
  · decide

/-- C2 counterexample: for the indented numbered item " 1. hello" the single
output line is " 1. hello": the emitted prefix keeps the leading whitespace
captured by the regex group, so the line does not begin with the bare "1. "
prefix that the claim describes. -/
theorem c2_numbered_counterexample :
    markdown_to_lines ((" 1. hello").data) = some [(" 1. hello").data] ∧
    decide (((" 1. hello").data.take 3) = ("1. ").data) = false := by
  constructor
  · decide
  · decide
